import Mathlib

/-!
Shallow embedding of the scene-editing core of `src/components/SVGDragDropEditor.jsx`
(an interactive SVG editor): grid snapping, the path mini-language codec
(`parsePath` / `stringifyPath`), bounding boxes and point containment, the
drag/resize/draw pointer handlers, the linear undo/redo history, and the
path-animation keyframe generators.

Modelling conventions:
* JavaScript numbers are modelled as exact rationals (`ℚ`).  Where the source
  can produce the IEEE special values `Infinity`, `-Infinity` or `NaN`
  (the `getBoundingBox` fold starts from `Infinity`, and `parseFloat` of a
  non-numeric token is `NaN`), we use the type `JNum` below, which adjoins
  those three values to `ℚ` and implements the JavaScript arithmetic and
  comparison rules on them.
* `Math.random()` is modelled as an explicit stream `ℕ → ℚ` of draws consumed
  left to right; `Math.sin` and `Math.sqrt` are modelled as oracle parameters
  (`ℚ → ℚ`), since no verified property depends on their values.
* React state is modelled as an explicit `EditorState` record; each event
  handler is a function `EditorState → ... → EditorState`, with the
  `useEffect` history recorder run after `setElements` (React applies the
  batched state updates and then runs the effect).
-/

namespace SvgEditor

/-! ## JavaScript numbers with the special values needed by the source -/

/-- A JavaScript number as produced by the path code: an exact rational,
`Infinity`, `-Infinity`, or `NaN`. -/
inductive JNum where
  | fin (q : ℚ)
  | posInf
  | negInf
  | nan
deriving DecidableEq, Repr

namespace JNum

/-- JavaScript `x + y` on `JNum` (IEEE rules; `∞ + -∞ = NaN`). -/
def add : JNum → JNum → JNum
  | nan, _ => nan
  | _, nan => nan
  | fin a, fin b => fin (a + b)
  | posInf, negInf => nan
  | negInf, posInf => nan
  | posInf, _ => posInf
  | _, posInf => posInf
  | negInf, _ => negInf
  | _, negInf => negInf

/-- JavaScript `x - y` on `JNum` (IEEE rules; `∞ - ∞ = NaN`). -/
def sub : JNum → JNum → JNum
  | nan, _ => nan
  | _, nan => nan
  | fin a, fin b => fin (a - b)
  | posInf, posInf => nan
  | negInf, negInf => nan
  | posInf, _ => posInf
  | _, posInf => negInf
  | negInf, _ => negInf
  | _, negInf => posInf

/-- JavaScript `x <= y` (false whenever an operand is `NaN`). -/
def le : JNum → JNum → Bool
  | nan, _ => false
  | _, nan => false
  | fin a, fin b => a ≤ b
  | negInf, _ => true
  | _, posInf => true
  | posInf, fin _ => false
  | posInf, negInf => false
  | fin _, negInf => false

/-- JavaScript `Math.min` (returns `NaN` if an argument is `NaN`). -/
def min (a b : JNum) : JNum :=
  match a, b with
  | nan, _ => nan
  | _, nan => nan
  | a, b => if le a b then a else b

/-- JavaScript `Math.max` (returns `NaN` if an argument is `NaN`). -/
def max (a b : JNum) : JNum :=
  match a, b with
  | nan, _ => nan
  | _, nan => nan
  | a, b => if le a b then b else a

end JNum

/-! ## Grid snapping -/

/-- JavaScript `Math.round`: nearest integer, ties towards `+∞`. -/
def jsRound (v : ℚ) : ℤ := ⌊v + 1/2⌋

/-- The grid configuration read by `snapToGridValue`: the `snapToGrid` and
`gridSize` pieces of component state. -/
structure SnapCfg where
  snapToGrid : Bool
  gridSize : ℚ
deriving DecidableEq, Repr

/-- `snapToGridValue` (line 78): `snapToGrid ? Math.round(value / gridSize) * gridSize : value`.
(The running program never calls `setGridSize`, so `gridSize` is 20 in every
reachable state; the definition keeps it as a parameter as the source does.) -/
def snapToGridValue (cfg : SnapCfg) (value : ℚ) : ℚ :=
  if cfg.snapToGrid then (jsRound (value / cfg.gridSize) : ℚ) * cfg.gridSize else value

/-! ## Points and shape records -/

/-- A point in scene coordinates. -/
structure Point where
  x : ℚ
  y : ℚ
deriving DecidableEq, Repr

/-- A `{ width, height }` record (the `initialSize` state). -/
structure Size where
  width : ℚ
  height : ℚ
deriving DecidableEq, Repr

/-! ## Path mini-language: character classes -/

/-- The command letters of the split regex `/(?=[MLHVCSQTAZmlhvcsqtaz])/`. -/
def isCmdLetter (c : Char) : Bool :=
  c = 'M' ∨ c = 'L' ∨ c = 'H' ∨ c = 'V' ∨ c = 'C' ∨ c = 'S' ∨ c = 'Q' ∨
  c = 'T' ∨ c = 'A' ∨ c = 'Z' ∨
  c = 'm' ∨ c = 'l' ∨ c = 'h' ∨ c = 'v' ∨ c = 'c' ∨ c = 's' ∨ c = 'q' ∨
  c = 't' ∨ c = 'a' ∨ c = 'z'

/-- The regex whitespace class `\s` (ASCII part; the path strings the editor
builds and consumes only ever contain the plain space). -/
def jsWS (c : Char) : Bool :=
  c = ' ' ∨ c = '\t' ∨ c = '\n' ∨ c = '\x0d' ∨ c = '\x0b' ∨ c = '\x0c'

/-- The separator class `[,\s]` of the coordinate regex. -/
def sepChar (c : Char) : Bool := c = ',' ∨ jsWS c

/-- The token class `[^,\s]` of the coordinate regex. -/
def tokenChar (c : Char) : Bool := ¬ sepChar c

/-- A decimal digit. -/
def isDigitChar (c : Char) : Bool :=
  c = '0' ∨ c = '1' ∨ c = '2' ∨ c = '3' ∨ c = '4' ∨
  c = '5' ∨ c = '6' ∨ c = '7' ∨ c = '8' ∨ c = '9'

/-! ## Path mini-language: splitting on command letters

`pathData.split(/(?=[MLHVCSQTAZmlhvcsqtaz])/)` splits the string immediately
before every command letter.  Per the `String.prototype.split` algorithm an
empty match at the start position makes no progress, so no empty leading chunk
is produced and the first chunk simply starts at index 0; splitting the empty
string yields `[""]`. -/

/-- Splitter worker: `acc` is the current chunk, reversed. -/
def splitCmdsAux : List Char → List Char → List (List Char)
  | [], acc => [acc.reverse]
  | c :: cs, acc =>
    if isCmdLetter c then acc.reverse :: splitCmdsAux cs [c]
    else splitCmdsAux cs (c :: acc)

/-- `s.split(/(?=[MLHVCSQTAZmlhvcsqtaz])/)` as a function on char lists. -/
def splitCommands : List Char → List (List Char)
  | [] => [[]]
  | c :: cs => splitCmdsAux cs [c]

/-! ## Path mini-language: the coordinate regex

`cmd.match(/([MLml])\s*([^,\s]+)[,\s]([^,\s]+)/)` searches for the leftmost
match.  Because `[^,\s]` and `[,\s]` are disjoint classes, the greedy
quantifiers never need to backtrack, so the match at a given start position is
computed deterministically. -/

/-- Try the coordinate regex anchored at the head of the list; returns the
three capture groups (command letter, x token, y token) on success. -/
def matchMLAt : List Char → Option (Char × List Char × List Char)
  | [] => none
  | c :: cs =>
    if c = 'M' ∨ c = 'L' ∨ c = 'm' ∨ c = 'l' then
      let afterWS := cs.dropWhile jsWS
      let xTok := afterWS.takeWhile tokenChar
      if xTok = [] then none
      else
        match afterWS.dropWhile tokenChar with
        | [] => none
        | s :: rest =>
          if sepChar s then
            let yTok := rest.takeWhile tokenChar
            if yTok = [] then none else some (c, xTok, yTok)
          else none
    else none

/-- Leftmost search for the coordinate regex (JavaScript `String.match`). -/
def matchMLSearch : List Char → Option (Char × List Char × List Char)
  | [] => none
  | c :: cs =>
    match matchMLAt (c :: cs) with
    | some r => some r
    | none => matchMLSearch cs

/-! ## `parseFloat` -/

/-- Accumulate decimal digits into a natural number. -/
def digitsToNat (l : List Char) : ℕ :=
  l.foldl (fun n c => 10 * n + (c.toNat - 48)) 0

/-- The value of an integer-digit run together with a fraction-digit run:
`intPart.fracPart` as an exact rational. -/
def mantissaVal (intPart fracPart : List Char) : ℚ :=
  (digitsToNat intPart : ℚ) + (digitsToNat fracPart : ℚ) / 10 ^ fracPart.length

/-- An optional leading sign: `-` negates, `+` is consumed, anything else
left in place. -/
def parseSign : List Char → Bool × List Char
  | '-' :: rest => (true, rest)
  | '+' :: rest => (false, rest)
  | l => (false, l)

/-- The optional fraction: a `.` followed by a digit run. -/
def parseFracPart : List Char → List Char × List Char
  | '.' :: rest => (rest.takeWhile isDigitChar, rest.dropWhile isDigitChar)
  | l => ([], l)

/-- An optionally signed exponent digit run; `0` when absent (JavaScript
backtracks to the mantissa if the exponent is incomplete). -/
def parseExpDigits (l : List Char) : ℤ :=
  let sl := parseSign l
  let ds := sl.2.takeWhile isDigitChar
  if ds = [] then 0
  else if sl.1 then -(digitsToNat ds : ℤ) else (digitsToNat ds : ℤ)

/-- The optional exponent marker `e`/`E`. -/
def parseExpPart : List Char → ℤ
  | 'e' :: rest => parseExpDigits rest
  | 'E' :: rest => parseExpDigits rest
  | _ => 0

/-- The part of `parseFloat` after the sign: the literal `Infinity`, or a
decimal mantissa with optional fraction and exponent; `NaN` if no digit is
found at all. -/
def parseMantissa (neg : Bool) (l : List Char) : JNum :=
  if l.take 8 = "Infinity".data then
    if neg then JNum.negInf else JNum.posInf
  else
    let intPart := l.takeWhile isDigitChar
    let l₁ := l.dropWhile isDigitChar
    let fp := parseFracPart l₁
    let fracPart := fp.1
    let l₂ := fp.2
    if intPart = [] ∧ fracPart = [] then JNum.nan
    else
      let mant := mantissaVal intPart fracPart
      let expVal : ℤ := parseExpPart l₂
      let v : ℚ := mant * (10 : ℚ) ^ expVal
      JNum.fin (if neg then -v else v)

/-- JavaScript `parseFloat` on a char list: skip leading whitespace, optional
sign, then the mantissa. -/
def jsParseFloatAux (l : List Char) : JNum :=
  let l := l.dropWhile jsWS
  let sl := parseSign l
  parseMantissa sl.1 sl.2

/-- `parseFloat` on a string. -/
def jsParseFloat (s : String) : JNum := jsParseFloatAux s.data

/-! ## Number → string (template-literal interpolation of a number) -/

/-- The character of a decimal digit. -/
def digitChar : ℕ → Char
  | 0 => '0' | 1 => '1' | 2 => '2' | 3 => '3' | 4 => '4'
  | 5 => '5' | 6 => '6' | 7 => '7' | 8 => '8' | _ => '9'

/-- Decimal digit characters of `n`, most significant first. -/
def toDecimal (n : ℕ) : List Char :=
  if h : n < 10 then [digitChar n]
  else toDecimal (n / 10) ++ [digitChar (n % 10)]
decreasing_by exact Nat.div_lt_self (by omega) (by omega)

/-- Bounded search for the least `k ≥` the cursor with `q * 10^k` an
integer. -/
def decExpAux (q : ℚ) : ℕ → ℕ → Option ℕ
  | 0, _ => none
  | fuel + 1, k => if (q * 10 ^ k).den = 1 then some k else decExpAux q fuel (k + 1)

/-- The least `k` with `q * 10^k` an integer, when one exists (searching up
to `q.den` suffices: a denominator dividing a power of 10 divides
`10 ^ q.den`). -/
def decExp (q : ℚ) : Option ℕ := decExpAux q (q.den + 1) 0

/-- Decimal rendering of a nonnegative rational whose denominator is a power
of 10 (every finite IEEE double is such a rational): integer digits, then a
`.` and the fraction digits when the value is not an integer.  This is the
exact-value core of JavaScript number-to-string; for floats of extreme
magnitude JavaScript switches to exponent notation, which `parseFloat` reads
back to the same value, so the codec round-trip is insensitive to the
difference. -/
def renderNonneg (q : ℚ) : List Char :=
  match decExp q with
  | some 0 => toDecimal q.num.toNat
  | some k =>
    let ds := toDecimal (q * 10 ^ k).num.toNat
    let ds := if ds.length < k + 1 then List.replicate (k + 1 - ds.length) '0' ++ ds else ds
    ds.take (ds.length - k) ++ '.' :: ds.drop (ds.length - k)
  | none => toDecimal q.num.toNat

/-- String interpolation of a finite number. -/
def renderNum (q : ℚ) : List Char :=
  if q < 0 then '-' :: renderNonneg (-q) else renderNonneg q

/-- String interpolation of a `JNum` (`Infinity` / `-Infinity` / `NaN` render
as those literals in JavaScript). -/
def renderJNum : JNum → String
  | JNum.fin q => String.mk (renderNum q)
  | JNum.posInf => "Infinity"
  | JNum.negInf => "-Infinity"
  | JNum.nan => "NaN"

/-! ## `parsePath` / `stringifyPath` (lines 697-733) -/

/-- A parsed path segment: a move/line command with coordinates, or an opaque
raw command (`{command, x, y}` vs `{command, raw}` objects in the source). -/
inductive PathSeg where
  | coord (command : String) (x y : JNum)
  | raw (command : String) (raw : String)
deriving DecidableEq, Repr

/-- The body of the `forEach` in `parsePath`: one chunk to one segment.
`type` is `cmd.charAt(0)` (a one-character string, or `""` for an empty
chunk).  On match failure the destructuring fallback `|| [null, type, 0, 0]`
makes `x` the command-letter string (so `parseFloat(x)` is `NaN`) and `y` the
number `0`. -/
def parsePathChunk (cmd : List Char) : PathSeg :=
  let type : String := String.mk (cmd.take 1)
  if type = "M" ∨ type = "L" then
    match matchMLSearch cmd with
    | some (_, xTok, yTok) =>
      PathSeg.coord type (jsParseFloatAux xTok) (jsParseFloatAux yTok)
    | none => PathSeg.coord type (jsParseFloat type) (JNum.fin 0)
  else
    PathSeg.raw type (String.mk cmd)

/-- `parsePath` (line 698): split on command-letter boundaries, then decode
each chunk. -/
def parsePath (pathData : String) : List PathSeg :=
  (splitCommands pathData.data).map parsePathChunk

/-- `Array.prototype.join(sep)`. -/
def joinSep (sep : String) : List String → String
  | [] => ""
  | [x] => x
  | x :: xs => x ++ sep ++ joinSep sep xs

/-- One segment of `stringifyPath`: `"<CMD> <x> <y>"` for move/line segments,
the raw text verbatim otherwise. -/
def stringifySeg : PathSeg → String
  | PathSeg.coord command x y => command ++ " " ++ renderJNum x ++ " " ++ renderJNum y
  | PathSeg.raw _ r => r

/-- `stringifyPath` (line 725): render each segment and space-join. -/
def stringifyPath (segments : List PathSeg) : String :=
  joinSep " " (segments.map stringifySeg)

/-! ## `getBoundingBox` (lines 584-611) -/

/-- The `{x, y, width, height}` record returned by `getBoundingBox`. -/
structure BBox where
  x : JNum
  y : JNum
  width : JNum
  height : JNum
deriving DecidableEq, Repr

/-- The body of the `forEach` in `getBoundingBox`: update the running
`(minX, minY, maxX, maxY)` with a move/line chunk's coordinates; other
chunks leave it unchanged.  The match fallback is the same
`|| [null, type, 0, 0]` as in `parsePath`. -/
def bboxStep (st : JNum × JNum × JNum × JNum) (cmd : List Char) :
    JNum × JNum × JNum × JNum :=
  if String.mk (cmd.take 1) = "M" ∨ String.mk (cmd.take 1) = "L" then
    let (numX, numY) : JNum × JNum :=
      match matchMLSearch cmd with
      | some (_, xTok, yTok) => (jsParseFloatAux xTok, jsParseFloatAux yTok)
      | none => (jsParseFloat (String.mk (cmd.take 1)), JNum.fin 0)
    (JNum.min st.1 numX, JNum.min st.2.1 numY,
     JNum.max st.2.2.1 numX, JNum.max st.2.2.2 numY)
  else st

/-- The path-data part of `getBoundingBox`: fold min/max of the move/line
coordinates over the command chunks, starting from `±Infinity`; the width
and height are the resulting differences. -/
def getBoundingBoxD (d : String) : BBox :=
  let st := (splitCommands d.data).foldl bboxStep
    (JNum.posInf, JNum.posInf, JNum.negInf, JNum.negInf)
  ⟨st.1, st.2.1, JNum.sub st.2.2.1 st.1, JNum.sub st.2.2.2 st.2.1⟩

/-! ## Shape records -/

/-- A `rect` element. -/
structure RectData where
  id : String
  x : ℚ
  y : ℚ
  width : ℚ
  height : ℚ
  fill : String
  stroke : String
  strokeWidth : ℚ
deriving DecidableEq, Repr

/-- A `circle` element. -/
structure CircleData where
  id : String
  cx : ℚ
  cy : ℚ
  r : ℚ
  fill : String
  stroke : String
  strokeWidth : ℚ
deriving DecidableEq, Repr

/-- An `ellipse` element (created by the quantum-effect factory; ring
ellipses carry stroke/dash fields, the main one a filter reference). -/
structure EllipseData where
  id : String
  cx : ℚ
  cy : ℚ
  rx : ℚ
  ry : ℚ
  fill : String
  stroke : Option String
  strokeWidth : Option ℚ
  strokeDasharray : Option String
  filter : Option String
deriving DecidableEq, Repr

/-- A `text` element.  `width`/`height` do not exist at creation; the resize
handler assigns them dynamically, hence `Option`. -/
structure TextData where
  id : String
  x : ℚ
  y : ℚ
  text : String
  fontSize : ℚ
  fontFamily : String
  fill : String
  width : Option ℚ
  height : Option ℚ
deriving DecidableEq, Repr

/-- A `path` element. -/
structure PathElData where
  id : String
  d : String
  fill : String
  stroke : String
  strokeWidth : ℚ
deriving DecidableEq, Repr

/-- The tagged union over the editor's element kinds (the source uses a
`type` string field on plain objects). -/
inductive Element where
  | rect : RectData → Element
  | circle : CircleData → Element
  | ellipse : EllipseData → Element
  | text : TextData → Element
  | path : PathElData → Element
deriving DecidableEq, Repr

/-- `element.id`. -/
def Element.id : Element → String
  | Element.rect r => r.id
  | Element.circle c => c.id
  | Element.ellipse e => e.id
  | Element.text t => t.id
  | Element.path p => p.id

/-- `getBoundingBox` (line 584): non-path elements get the zero box. -/
def getBoundingBox : Element → BBox
  | Element.path p => getBoundingBoxD p.d
  | _ => ⟨JNum.fin 0, JNum.fin 0, JNum.fin 0, JNum.fin 0⟩

/-! ## `isPointInElement` (lines 525-569) -/

/-- `isPointInElement`: rectangle/text use box containment, circle squared
distance, ellipse normalized distance (false when a radius is 0), path the
bounding box with a 5-unit buffer.  In the ellipse branch the source reads
`element.rx || 0`; with `rx` always a number this maps `0` to `0` and is
otherwise the identity, so it is the field itself here. -/
def isPointInElement (point : Point) (element : Element) : Bool :=
  match element with
  | Element.rect e =>
    point.x ≥ e.x ∧ point.x ≤ e.x + e.width ∧
    point.y ≥ e.y ∧ point.y ≤ e.y + e.height
  | Element.circle e =>
    let dx := point.x - e.cx
    let dy := point.y - e.cy
    dx * dx + dy * dy ≤ e.r * e.r
  | Element.ellipse e =>
    let rx := e.rx
    let ry := e.ry
    if rx = 0 ∨ ry = 0 then false
    else
      let dx := (point.x - e.cx) / rx
      let dy := (point.y - e.cy) / ry
      dx * dx + dy * dy ≤ 1
  | Element.text e =>
    let textWidth := (e.text.length : ℚ) * (e.fontSize * (6/10))
    let textHeight := e.fontSize * (12/10)
    point.x ≥ e.x ∧ point.x ≤ e.x + textWidth ∧
    point.y ≥ e.y - textHeight ∧ point.y ≤ e.y
  | Element.path _ =>
    let bbox := getBoundingBox element
    let buffer : JNum := JNum.fin 5
    JNum.le (JNum.sub bbox.x buffer) (JNum.fin point.x) ∧
    JNum.le (JNum.fin point.x) (JNum.add (JNum.add bbox.x bbox.width) buffer) ∧
    JNum.le (JNum.sub bbox.y buffer) (JNum.fin point.y) ∧
    JNum.le (JNum.fin point.y) (JNum.add (JNum.add bbox.y bbox.height) buffer)

/-! ## Path-animation keyframe generators (lines 614-695)

`Math.random()` is modelled as a stream `rng : ℕ → ℚ` of draws consumed in
call order (a counter is threaded through; only move/line segments draw).
`Math.sin` is an oracle parameter; `Math.PI` is the exact rational value of
the IEEE double `Math.PI`. -/

/-- The float `Math.PI` as an exact rational. -/
def jsPI : ℚ := 884279719003555 / 281474976710656

/-- One variation of `generatePathVariations`: perturb every move/line
segment by `(Math.random() - 0.5) * 20 * intensity` in x and y.  Returns the
new segments and the advanced random-stream counter. -/
def perturbVariation (rng : ℕ → ℚ) (intensity : ℚ) :
    List PathSeg → ℕ → List PathSeg × ℕ
  | [], k => ([], k)
  | PathSeg.coord c x y :: rest, k =>
    if c = "M" ∨ c = "L" then
      let x' := JNum.add x (JNum.fin ((rng k - 1/2) * 20 * intensity))
      let y' := JNum.add y (JNum.fin ((rng (k + 1) - 1/2) * 20 * intensity))
      let (tail, k') := perturbVariation rng intensity rest (k + 2)
      (PathSeg.coord c x' y' :: tail, k')
    else
      let (tail, k') := perturbVariation rng intensity rest k
      (PathSeg.coord c x y :: tail, k')
  | PathSeg.raw c r :: rest, k =>
    let (tail, k') := perturbVariation rng intensity rest k
    (PathSeg.raw c r :: tail, k')

/-- The `for` loop of `generatePathVariations`, producing the stringified
variations in order. -/
def genVariationsLoop (rng : ℕ → ℚ) (intensity : ℚ) (segs : List PathSeg) :
    ℕ → ℕ → List String
  | 0, _ => []
  | n + 1, k =>
    let (newSegs, k') := perturbVariation rng intensity segs k
    stringifyPath newSegs :: genVariationsLoop rng intensity segs n k'

/-- `generatePathVariations` (line 614; `intensity` defaults to `0.5`):
generate `numVariations` perturbed copies, append the original path data,
semicolon-join. -/
def generatePathVariations (rng : ℕ → ℚ) (pathData : String) (numVariations : ℕ)
    (intensity : ℚ := 1/2) : String :=
  let pathSegments := parsePath pathData
  let variations := genVariationsLoop rng intensity pathSegments numVariations 0
  joinSep ";" (variations ++ [pathData])

/-- One variation of `generateJitterPaths`: jitter is
`(Math.random() - 0.5) * intensity` per axis. -/
def jitterVariation (rng : ℕ → ℚ) (intensity : ℚ) :
    List PathSeg → ℕ → List PathSeg × ℕ
  | [], k => ([], k)
  | PathSeg.coord c x y :: rest, k =>
    if c = "M" ∨ c = "L" then
      let jitterX := (rng k - 1/2) * intensity
      let jitterY := (rng (k + 1) - 1/2) * intensity
      let (tail, k') := jitterVariation rng intensity rest (k + 2)
      (PathSeg.coord c (JNum.add x (JNum.fin jitterX)) (JNum.add y (JNum.fin jitterY)) :: tail, k')
    else
      let (tail, k') := jitterVariation rng intensity rest k
      (PathSeg.coord c x y :: tail, k')
  | PathSeg.raw c r :: rest, k =>
    let (tail, k') := jitterVariation rng intensity rest k
    (PathSeg.raw c r :: tail, k')

/-- The `for` loop of `generateJitterPaths`. -/
def genJitterLoop (rng : ℕ → ℚ) (intensity : ℚ) (segs : List PathSeg) :
    ℕ → ℕ → List String
  | 0, _ => []
  | n + 1, k =>
    let (newSegs, k') := jitterVariation rng intensity segs k
    stringifyPath newSegs :: genJitterLoop rng intensity segs n k'

/-- `generateJitterPaths` (line 640). -/
def generateJitterPaths (rng : ℕ → ℚ) (pathData : String) (intensity : ℚ)
    (numVariations : ℕ) : String :=
  let pathSegments := parsePath pathData
  let variations := genJitterLoop rng intensity pathSegments numVariations 0
  joinSep ";" (variations ++ [pathData])

/-- One variation of `generateWavePaths` at phase `phase`: segment `index`
moves by `sin(phase + index * 0.5) * intensity` in x and half that in y. -/
def waveVariation (sinFn : ℚ → ℚ) (intensity phase : ℚ) (segs : List PathSeg) :
    List PathSeg :=
  (segs.enum).map fun (index, seg) =>
    match seg with
    | PathSeg.coord c x y =>
      if c = "M" ∨ c = "L" then
        let waveOffset := sinFn (phase + (index : ℚ) * (1/2)) * intensity
        PathSeg.coord c (JNum.add x (JNum.fin waveOffset))
          (JNum.add y (JNum.fin (waveOffset * (1/2))))
      else PathSeg.coord c x y
    | PathSeg.raw c r => PathSeg.raw c r

/-- The `for` loop of `generateWavePaths`; `i` counts up to `numVariations`. -/
def genWaveLoop (sinFn : ℚ → ℚ) (intensity : ℚ) (numVariations : ℕ)
    (segs : List PathSeg) : ℕ → List String
  | 0 => []
  | n + 1 =>
    let i := numVariations - (n + 1)
    let phase := ((i : ℚ) / (numVariations : ℚ)) * jsPI * 2
    stringifyPath (waveVariation sinFn intensity phase segs) ::
      genWaveLoop sinFn intensity numVariations segs n
  termination_by n => n

/-- `generateWavePaths` (line 668). -/
def generateWavePaths (sinFn : ℚ → ℚ) (pathData : String) (intensity : ℚ)
    (numVariations : ℕ) : String :=
  let pathSegments := parsePath pathData
  let variations := genWaveLoop sinFn intensity numVariations pathSegments numVariations
  joinSep ";" (variations ++ [pathData])

/-- The suffix of a keyframe-value string after its last `;` — the "last
entry of the semicolon-separated value list". -/
def lastSemiEntry (s : String) : String :=
  String.mk ((s.data.reverse.takeWhile (fun c => c ≠ ';')).reverse)

/-! ## Animation records and the Animation Panel operations -/

/-- An animation descriptor (the source stores plain objects; fields that
some descriptor kinds lack are `Option`). -/
structure Animation where
  id : String
  elementId : String
  type : String
  attributeName : String
  path : Option String
  keyTimes : Option String
  values : Option String
  dur : ℚ
  repeatCount : String
  name : String
  motionType : Option String
  intensity : Option ℚ
deriving DecidableEq, Repr

/-- The "Path Morph" creation handler (lines 2281-2294): stores the target's
current `d` on the descriptor (`path`) and eagerly generates the keyframe
values with 5 variations at the default intensity. -/
def mkPathMorphAnimation (rng : ℕ → ℚ) (animId nameStr : String) (el : Element) :
    Animation where
  id := animId
  elementId := el.id
  type := "motion"
  attributeName := "d"
  path := match el with | Element.path p => some p.d | _ => none
  keyTimes := some "0;0.25;0.5;0.75;1"
  values := match el with
    | Element.path p => some (generatePathVariations rng p.d 5)
    | _ => none
  dur := 5
  repeatCount := "indefinite"
  name := nameStr
  motionType := none
  intensity := none

/-- The Motion Type select handler (lines 2641-2648): sets `motionType` only
(the keyframe values are not regenerated here). -/
def setMotionType (anim : Animation) (v : String) : Animation :=
  { anim with motionType := some v }

/-- The `switch (anim.motionType || 'morph')` of the Intensity slider
handler (lines 2672-2681): regenerate the keyframe values from a path-data
string with the given intensity under the selected strategy. -/
def motionPathVariations (rng : ℕ → ℚ) (sinFn : ℚ → ℚ)
    (motionType : Option String) (pathData : String) (intensity : ℚ) : String :=
  match motionType.getD "morph" with
  | "jitter" => generateJitterPaths rng pathData intensity 5
  | "wave" => generateWavePaths sinFn pathData intensity 5
  | _ => generatePathVariations rng pathData 5 (intensity / 10)

/-- The Intensity slider handler (lines 2665-2688): regenerate the keyframe
values from `anim.path` — the original source path stored at creation — with
the new intensity.  The slider is rendered only when `anim.path` is truthy,
hence the `getD` default. -/
def setMotionIntensity (rng : ℕ → ℚ) (sinFn : ℚ → ℚ) (anim : Animation)
    (intensity : ℚ) : Animation :=
  { anim with
    intensity := some intensity
    values := some (motionPathVariations rng sinFn anim.motionType
      (anim.path.getD "") intensity) }

/-- A sequence of intensity edits, each with its own stream of
`Math.random()` draws, applied in order. -/
def applyIntensityEdits (sinFn : ℚ → ℚ) (anim : Animation)
    (edits : List ((ℕ → ℚ) × ℚ)) : Animation :=
  edits.foldl (fun a e => setMotionIntensity e.1 sinFn a e.2) anim

/-! ## Editor state and event handlers -/

/-- The component state read or written by the modelled handlers (the
pointer handlers, the key handler's undo/redo, and the history effect). -/
structure EditorState where
  elements : List Element
  selectedElement : Option Element
  draggedElement : Option Element
  offset : Point
  isDrawing : Bool
  drawingPath : String
  pathPoints : List Point
  gridSize : ℚ
  snapToGrid : Bool
  history : List (List Element)
  historyIndex : ℤ
  isResizing : Bool
  resizeDirection : String
  initialSize : Size
  initialPosition : Point
deriving DecidableEq, Repr

/-- The snap configuration of a state. -/
def EditorState.snapCfg (s : EditorState) : SnapCfg := ⟨s.snapToGrid, s.gridSize⟩

/-- `resizeDirection.includes(c)`. -/
def dirIncludes (direction : String) (c : Char) : Bool := direction.data.contains c

/-- The rect/text dimension computation of the resize branch of
`handleMouseMove` (lines 347-364): the `newWidth`/`newHeight`/`newX`/`newY`
locals, `none` when a variable stays `undefined`.  The source runs four
sequential `if`s, so when a direction string contains both `e` and `w` (resp.
both `s` and `n`) the later assignment — the `w` (resp. `n`) branch — wins. -/
def resizeBox (cfg : SnapCfg) (direction : String) (initialSize : Size)
    (initialPosition : Point) (svgPoint : Point) :
    Option ℚ × Option ℚ × Option ℚ × Option ℚ :=
  let deltaX := svgPoint.x - initialPosition.x
  let deltaY := svgPoint.y - initialPosition.y
  let wWidth := snapToGridValue cfg (max 20 (initialSize.width - deltaX))
  let eWidth := snapToGridValue cfg (max 20 (initialSize.width + deltaX))
  let nHeight := snapToGridValue cfg (max 20 (initialSize.height - deltaY))
  let sHeight := snapToGridValue cfg (max 20 (initialSize.height + deltaY))
  let newWidth :=
    if dirIncludes direction 'w' then some wWidth
    else if dirIncludes direction 'e' then some eWidth
    else none
  let newHeight :=
    if dirIncludes direction 'n' then some nHeight
    else if dirIncludes direction 's' then some sHeight
    else none
  let newX :=
    if dirIncludes direction 'w' then
      some (snapToGridValue cfg (initialPosition.x + initialSize.width - wWidth))
    else none
  let newY :=
    if dirIncludes direction 'n' then
      some (snapToGridValue cfg (initialPosition.y + initialSize.height - nHeight))
    else none
  (newWidth, newHeight, newX, newY)

/-- Interpolation of a finite number into a template literal. -/
def renderQ (q : ℚ) : String := String.mk (renderNum q)

/-- The `points.reduce` used by `createPath` (lines 125-128) and the drawing
branch of `handleMouseMove` (lines 424-427): `M x y L x y ...`. -/
def pointsToPathData (points : List Point) : String :=
  match points with
  | [] => ""
  | p :: rest =>
    rest.foldl (fun acc q => acc ++ " L " ++ renderQ q.x ++ " " ++ renderQ q.y)
      ("M " ++ renderQ p.x ++ " " ++ renderQ p.y)

/-- `createPath` (line 123); the fresh id is a parameter (the source draws it
from `Date.now()` and `Math.random()`). -/
def createPath (newId : String) (points : List Point) : Element :=
  Element.path
    { id := newId, d := pointsToPathData points, fill := "none", stroke := "red",
      strokeWidth := 2 }

/-- The rect case of the resize branch: apply the computed `newWidth` /
`newHeight` / `newX` / `newY` when defined (`if (newWidth !== undefined)
el.width = newWidth` etc.). -/
def applyBoxResize (rz : Option ℚ × Option ℚ × Option ℚ × Option ℚ)
    (r : RectData) : RectData :=
  { r with
    width := rz.1.getD r.width
    height := rz.2.1.getD r.height
    x := rz.2.2.1.getD r.x
    y := rz.2.2.2.getD r.y }

/-- The text case of the resize branch: the same assignments; `width` and
`height` are dynamically added fields on a text object. -/
def applyBoxResizeText (rz : Option ℚ × Option ℚ × Option ℚ × Option ℚ)
    (t : TextData) : TextData :=
  { t with
    width := match rz.1 with | some w => some w | none => t.width
    height := match rz.2.1 with | some h => some h | none => t.height
    x := rz.2.2.1.getD t.x
    y := rz.2.2.2.getD t.y }

/-- The path translation of the drag branch (lines 400-411): shift every
move/line coordinate of `pathData` by `(translateX, translateY)`, leaving
other commands verbatim.  The offsets are `JNum`s because they are computed
from a bounding box that can be infinite. -/
def translatePathData (pathData : String) (translateX translateY : JNum) : String :=
  let commands := splitCommands pathData.data
  joinSep " " (commands.map fun cmd =>
    let type : String := String.mk (cmd.take 1)
    if type = "M" ∨ type = "L" then
      let (x, y) : JNum × JNum :=
        match matchMLSearch cmd with
        | some (_, xTok, yTok) => (jsParseFloatAux xTok, jsParseFloatAux yTok)
        | none => (jsParseFloat type, JNum.fin 0)
      type ++ " " ++ renderJNum (JNum.add x translateX) ++ " " ++
        renderJNum (JNum.add y translateY)
    else String.mk cmd)

/-- `handleMouseMove` (lines 331-431).  `sqrtFn` is the `Math.sqrt` oracle
(used only by circle resize).  Notes on fidelity:
* the resize branch mutates the found element in place through a shallow
  array copy; here the list is updated at the found index (the aliased
  `selectedElement` object is only ever read for its `id` afterwards);
* the drag branch reads `draggedElement` — the object captured at
  pointer-down — not the current array entry, when translating a path;
* an element whose kind has no case in a branch (e.g. dragging an ellipse)
  is left unchanged, as in the source. -/
def handleMouseMove (sqrtFn : ℚ → ℚ) (s : EditorState) (svgPoint : Point) :
    EditorState :=
  if s.draggedElement = none ∧ s.isDrawing = false ∧ s.isResizing = false then s
  else if s.isResizing ∧ s.selectedElement.isSome then
    match s.selectedElement with
    | none => s
    | some sel =>
      match s.elements.findIdx? (fun el => el.id == sel.id) with
      | none => s
      | some index =>
        match s.elements.get? index with
        | none => s
        | some el =>
          match el with
          | Element.rect r =>
            let rz := resizeBox s.snapCfg s.resizeDirection s.initialSize
              s.initialPosition svgPoint
            { s with elements :=
                s.elements.set index (Element.rect (applyBoxResize rz r)) }
          | Element.text t =>
            let rz := resizeBox s.snapCfg s.resizeDirection s.initialSize
              s.initialPosition svgPoint
            { s with elements :=
                s.elements.set index (Element.text (applyBoxResizeText rz t)) }
          | Element.circle c =>
            let dx := svgPoint.x - c.cx
            let dy := svgPoint.y - c.cy
            let newRadius := snapToGridValue s.snapCfg
              (max 10 (sqrtFn (dx * dx + dy * dy)))
            { s with elements :=
                s.elements.set index (Element.circle { c with r := newRadius }) }
          | _ => s
  else if s.draggedElement.isSome then
    match s.draggedElement with
    | none => s
    | some de =>
      match s.elements.findIdx? (fun el => el.id == de.id) with
      | none => s
      | some index =>
        let newX := snapToGridValue s.snapCfg (svgPoint.x - s.offset.x)
        let newY := snapToGridValue s.snapCfg (svgPoint.y - s.offset.y)
        let newElements :=
          match de with
          | Element.rect _ =>
            s.elements.modify (fun el =>
              match el with
              | Element.rect r => Element.rect { r with x := newX, y := newY }
              | Element.text t => Element.text { t with x := newX, y := newY }
              | other => other) index
          | Element.text _ =>
            s.elements.modify (fun el =>
              match el with
              | Element.rect r => Element.rect { r with x := newX, y := newY }
              | Element.text t => Element.text { t with x := newX, y := newY }
              | other => other) index
          | Element.circle _ =>
            s.elements.modify (fun el =>
              match el with
              | Element.circle c => Element.circle { c with cx := newX, cy := newY }
              | other => other) index
          | Element.path dp =>
            let bbox := getBoundingBox (Element.path dp)
            let translateX := JNum.sub (JNum.fin newX) bbox.x
            let translateY := JNum.sub (JNum.fin newY) bbox.y
            let newPathData := translatePathData dp.d translateX translateY
            s.elements.modify (fun el =>
              match el with
              | Element.path p => Element.path { p with d := newPathData }
              | other => other) index
          | Element.ellipse _ => s.elements
        { s with elements := newElements,
                 selectedElement := newElements.get? index }
  else if s.isDrawing then
    let newPoints := s.pathPoints ++ [svgPoint]
    let newPathData := pointsToPathData newPoints
    { s with pathPoints := newPoints, drawingPath := newPathData }
  else s

/-- `handleMouseUp` (lines 434-449): finalize a drawn path only when more
than one point was captured, then always clear the drawing state, the
dragged element and the resizing flag. -/
def handleMouseUp (newId : String) (s : EditorState) : EditorState :=
  let s :=
    if s.isDrawing then
      let s :=
        if s.pathPoints.length > 1 then
          let newPath := createPath newId s.pathPoints
          { s with elements := s.elements ++ [newPath],
                   selectedElement := some newPath }
        else s
      { s with isDrawing := false, pathPoints := [], drawingPath := "" }
    else s
  { s with draggedElement := none, isResizing := false }

/-! ## History (effect at lines 51-58, undo/redo at lines 452-468) -/

/-- `history[i]` as a JavaScript indexing: `undefined` (`none`) when out of
bounds (in particular at the initial index `-1`). -/
def historyAt (history : List (List Element)) (i : ℤ) : Option (List Element) :=
  if i < 0 then none else history.get? i.toNat

/-- The recording condition of the history effect (line 52):
`elements.length > 0 && (history.length === 0 ||
JSON.stringify(history[historyIndex]) !== JSON.stringify(elements))` —
the `stringify` comparison is structural (deep) equality, and an
out-of-bounds `history[historyIndex]` (`undefined`) always compares
unequal. -/
def recordCond (s : EditorState) : Prop :=
  0 < s.elements.length ∧
    (s.history.length = 0 ∨ historyAt s.history s.historyIndex ≠ some s.elements)

instance (s : EditorState) : Decidable (recordCond s) := by
  unfold recordCond
  infer_instance

/-- The history-recording `useEffect` (lines 51-58), run after every
`setElements`: append a snapshot when the element list is non-empty and
differs structurally from the snapshot at the current index (and always
when the history is empty), truncating the redo tail and advancing the
index.  When nothing is appended the state is untouched. -/
def recordHistory (s : EditorState) : EditorState :=
  if recordCond s then
    let newHistory := s.history.take (s.historyIndex + 1).toNat ++ [s.elements]
    { s with history := newHistory, historyIndex := (newHistory.length : ℤ) - 1 }
  else s

/-- An edit: `setElements(f(elements))` followed by the history effect. -/
def applyEdit (f : List Element → List Element) (s : EditorState) : EditorState :=
  recordHistory { s with elements := f s.elements }

/-- A sequence of edits applied in order. -/
def applyEdits (fs : List (List Element → List Element)) (s : EditorState) :
    EditorState :=
  fs.foldl (fun s f => applyEdit f s) s

/-- "Each edit is recorded in history": at every application point the
history effect's condition holds for the edited element list. -/
def editsRecorded : EditorState → List (List Element → List Element) → Prop
  | _, [] => True
  | s, f :: fs =>
    recordCond { s with elements := f s.elements } ∧ editsRecorded (applyEdit f s) fs

instance instDecEditsRecorded :
    (s : EditorState) → (l : List (List Element → List Element)) →
      Decidable (editsRecorded s l)
  | _, [] => Decidable.isTrue trivial
  | s, f :: fs =>
    haveI := instDecEditsRecorded (applyEdit f s) fs
    inferInstanceAs (Decidable (_ ∧ _))

/-- The undo branch of `handleKeyDown` (lines 462-466): move the index back
and restore that snapshot when `historyIndex > 0`; otherwise nothing.  The
`setElements` re-triggers the history effect (shown to be a no-op here by
`recordHistory_undo_inner` below); out-of-bounds access cannot occur in
reachable states, so the `getD []` default is never used there. -/
def undo (s : EditorState) : EditorState :=
  if 0 < s.historyIndex then
    recordHistory
      { s with historyIndex := s.historyIndex - 1,
               elements := (historyAt s.history (s.historyIndex - 1)).getD [] }
  else s

/-- The redo branch of `handleKeyDown` (lines 456-460): move the index
forward and restore that snapshot when `historyIndex < history.length - 1`. -/
def redo (s : EditorState) : EditorState :=
  if s.historyIndex < (s.history.length : ℤ) - 1 then
    recordHistory
      { s with historyIndex := s.historyIndex + 1,
               elements := (historyAt s.history (s.historyIndex + 1)).getD [] }
  else s

/-! # Verified properties -/

/-! ## History coalescing (C6) -/

/-- If the current snapshot equals the element list, the recording effect's
condition is false, so the state is untouched. -/
theorem recordHistory_eq_self_of_current (s : EditorState)
    (h : historyAt s.history s.historyIndex = some s.elements) :
    recordHistory s = s := by
  unfold recordHistory
  rw [if_neg]
  rintro ⟨-, h2 | h2⟩
  · have : s.history ≠ [] := by
      intro hnil
      rw [hnil] at h
      unfold historyAt at h
      split at h
      · exact Option.noConfusion h
      · simp at h
    exact this (List.length_eq_zero.mp h2)
  · exact h2 h

/-- C6: recording a scene snapshot structurally equal to the snapshot at the
current history index leaves the history length and the history index
unchanged — the duplicate is not appended (the recording effect, lines
51-58, compares `JSON.stringify` of the two snapshots, i.e. deep equality). -/
theorem record_duplicate_snapshot_noop (s : EditorState)
    (h : historyAt s.history s.historyIndex = some s.elements) :
    (recordHistory s).history.length = s.history.length ∧
      (recordHistory s).historyIndex = s.historyIndex := by
  rw [recordHistory_eq_self_of_current s h]
  exact ⟨rfl, rfl⟩

/-- A concrete element used by witnesses. -/
def witnessRect : Element :=
  Element.rect
    { id := "element-1", x := 0, y := 0, width := 100, height := 80,
      fill := "#ADD8E6", stroke := "#0000FF", strokeWidth := 2 }

/-- A state whose current history snapshot equals its element list. -/
def witnessHistState : EditorState :=
  { elements := [witnessRect], selectedElement := none, draggedElement := none,
    offset := ⟨0, 0⟩, isDrawing := false, drawingPath := "", pathPoints := [],
    gridSize := 20, snapToGrid := true, history := [[witnessRect]],
    historyIndex := 0, isResizing := false, resizeDirection := "",
    initialSize := ⟨0, 0⟩, initialPosition := ⟨0, 0⟩ }

/-- Witness for C6 at a concrete state. -/
theorem record_duplicate_snapshot_noop_witness :
    (recordHistory witnessHistState).history.length =
        witnessHistState.history.length ∧
      (recordHistory witnessHistState).historyIndex =
        witnessHistState.historyIndex :=
  record_duplicate_snapshot_noop witnessHistState (by decide)

/-! ## Ellipse / circle containment (C9) -/

/-- C9: ellipse containment is false whenever a radius is 0 (the division is
never reached); otherwise it is exactly the normalized-distance condition,
and circle containment is exactly the squared-distance condition. -/
theorem ellipse_circle_containment (p : Point) (e : EllipseData) (c : CircleData) :
    (e.rx = 0 ∨ e.ry = 0 → isPointInElement p (Element.ellipse e) = false) ∧
      (e.rx ≠ 0 → e.ry ≠ 0 →
        (isPointInElement p (Element.ellipse e) = true ↔
          ((p.x - e.cx) / e.rx) ^ 2 + ((p.y - e.cy) / e.ry) ^ 2 ≤ 1)) ∧
      (isPointInElement p (Element.circle c) = true ↔
        (p.x - c.cx) ^ 2 + (p.y - c.cy) ^ 2 ≤ c.r ^ 2) := by
  refine ⟨fun h => ?_, fun hx hy => ?_, ?_⟩
  · simp only [isPointInElement]
    rw [if_pos h]
  · simp only [isPointInElement]
    rw [if_neg (by tauto)]
    rw [decide_eq_true_eq]
    constructor <;> intro h <;> [skip; skip] <;>
      · ring_nf at h ⊢
        linarith
  · simp only [isPointInElement, decide_eq_true_eq]
    constructor <;> intro h <;>
      · ring_nf at h ⊢
        linarith

/-- Witness for C9 at concrete shapes and points. -/
theorem ellipse_circle_containment_witness :
    isPointInElement ⟨3, 4⟩
        (Element.ellipse
          { id := "e0", cx := 0, cy := 0, rx := 0, ry := 7, fill := "red",
            stroke := none, strokeWidth := none, strokeDasharray := none,
            filter := none }) = false ∧
      (isPointInElement ⟨1, 1⟩
          (Element.ellipse
            { id := "e1", cx := 0, cy := 0, rx := 2, ry := 2, fill := "red",
              stroke := none, strokeWidth := none, strokeDasharray := none,
              filter := none }) = true ↔
        ((1 - 0) / 2 : ℚ) ^ 2 + ((1 - 0) / 2 : ℚ) ^ 2 ≤ 1) ∧
      (isPointInElement ⟨1, 2⟩
          (Element.circle
            { id := "c1", cx := 0, cy := 0, r := 3, fill := "g", stroke := "g",
              strokeWidth := 2 }) = true ↔
        ((1 : ℚ) - 0) ^ 2 + ((2 : ℚ) - 0) ^ 2 ≤ (3 : ℚ) ^ 2) := by
  obtain ⟨h1, h2, h3⟩ := ellipse_circle_containment (⟨3, 4⟩ : Point)
    { id := "e0", cx := 0, cy := 0, rx := 0, ry := 7, fill := "red",
      stroke := none, strokeWidth := none, strokeDasharray := none, filter := none }
    { id := "c1", cx := 0, cy := 0, r := 3, fill := "g", stroke := "g",
      strokeWidth := 2 }
  refine ⟨h1 (Or.inl rfl), ?_, ?_⟩
  · exact (ellipse_circle_containment (⟨1, 1⟩ : Point)
      { id := "e1", cx := 0, cy := 0, rx := 2, ry := 2, fill := "red",
        stroke := none, strokeWidth := none, strokeDasharray := none,
        filter := none }
      { id := "c1", cx := 0, cy := 0, r := 3, fill := "g", stroke := "g",
        strokeWidth := 2 }).2.1 (by norm_num) (by norm_num)
  · exact (ellipse_circle_containment (⟨1, 2⟩ : Point)
      { id := "e0", cx := 0, cy := 0, rx := 0, ry := 7, fill := "red",
        stroke := none, strokeWidth := none, strokeDasharray := none,
        filter := none }
      { id := "c1", cx := 0, cy := 0, r := 3, fill := "g", stroke := "g",
        strokeWidth := 2 }).2.2

/-! ## Pointer-up clears the gesture (C8) -/

/-- C8: after `handleMouseUp` the gesture state is fully cleared — no dragged
element, not resizing, not drawing, and the in-progress points and preview
path are empty — and a path with fewer than 2 captured points adds no shape.
The hypothesis is the state invariant that `pathPoints`/`drawingPath` are
only ever populated while `isDrawing` (they are set together at
pointer-down, lines 318-320, and cleared together here); the subsequent
history effect touches neither the gesture fields nor `elements`. -/
theorem mouseup_clears_gesture (newId : String) (s : EditorState)
    (hInv : s.isDrawing = false → s.pathPoints = [] ∧ s.drawingPath = "") :
    (handleMouseUp newId s).draggedElement = none ∧
      (handleMouseUp newId s).isResizing = false ∧
      (handleMouseUp newId s).isDrawing = false ∧
      (handleMouseUp newId s).pathPoints = [] ∧
      (handleMouseUp newId s).drawingPath = "" ∧
      (s.pathPoints.length < 2 → (handleMouseUp newId s).elements = s.elements) := by
  unfold handleMouseUp
  rcases hd : s.isDrawing with _ | _
  · obtain ⟨h1, h2⟩ := hInv hd
    simp [hd, h1, h2]
  · rcases hlen : decide (s.pathPoints.length > 1) with _ | _
    · have : ¬ s.pathPoints.length > 1 := of_decide_eq_false hlen
      simp [hd, if_neg this]
    · have hgt : s.pathPoints.length > 1 := of_decide_eq_true hlen
      simp [hd, if_pos hgt]
      omega

/-- Witness for C8: a one-point drawing gesture is discarded and cleared. -/
theorem mouseup_clears_gesture_witness :
    (handleMouseUp "element-9"
        { elements := [witnessRect], selectedElement := none,
          draggedElement := some witnessRect, offset := ⟨0, 0⟩,
          isDrawing := true, drawingPath := "M 5 5", pathPoints := [⟨5, 5⟩],
          gridSize := 20, snapToGrid := true, history := [],
          historyIndex := -1, isResizing := true, resizeDirection := "se",
          initialSize := ⟨0, 0⟩, initialPosition := ⟨0, 0⟩ }).draggedElement =
      none ∧
    (handleMouseUp "element-9"
        { elements := [witnessRect], selectedElement := none,
          draggedElement := some witnessRect, offset := ⟨0, 0⟩,
          isDrawing := true, drawingPath := "M 5 5", pathPoints := [⟨5, 5⟩],
          gridSize := 20, snapToGrid := true, history := [],
          historyIndex := -1, isResizing := true, resizeDirection := "se",
          initialSize := ⟨0, 0⟩, initialPosition := ⟨0, 0⟩ }).elements =
      [witnessRect] := by
  have h := mouseup_clears_gesture "element-9"
    { elements := [witnessRect], selectedElement := none,
      draggedElement := some witnessRect, offset := ⟨0, 0⟩,
      isDrawing := true, drawingPath := "M 5 5", pathPoints := [⟨5, 5⟩],
      gridSize := 20, snapToGrid := true, history := [],
      historyIndex := -1, isResizing := true, resizeDirection := "se",
      initialSize := ⟨0, 0⟩, initialPosition := ⟨0, 0⟩ }
    (by intro h; exact absurd h (by decide))
  exact ⟨h.1, h.2.2.2.2.2 (by decide)⟩

/-! ## Stale gesture identifiers are silent no-ops (C7) -/

/-- `findIndex` returns `-1` (`none`) when no element satisfies the test. -/
theorem findIdx?_eq_none_of_forall {α : Type} (q : α → Bool) (l : List α)
    (h : ∀ a ∈ l, q a = false) : l.findIdx? q = none :=
  List.findIdx?_eq_none_iff.mpr h

/-- C7: a pointer move during an active resize or drag whose target
identifier no longer occurs in the element list leaves the whole state —
in particular the element list — unchanged; the handler is total, so no
error is raised. -/
theorem stale_gesture_noop (sqrtFn : ℚ → ℚ) (s : EditorState) (p : Point) :
    ((∃ sel, s.selectedElement = some sel ∧ s.isResizing = true ∧
        ∀ el ∈ s.elements, el.id ≠ sel.id) →
      handleMouseMove sqrtFn s p = s) ∧
    ((∃ de, s.draggedElement = some de ∧
        (s.isResizing = false ∨ s.selectedElement = none) ∧
        ∀ el ∈ s.elements, el.id ≠ de.id) →
      handleMouseMove sqrtFn s p = s) := by
  constructor
  · rintro ⟨sel, hsel, hres, hstale⟩
    have hfind : s.elements.findIdx? (fun el => el.id == sel.id) = none :=
      findIdx?_eq_none_of_forall _ _ fun el hel => by
        simpa using hstale el hel
    unfold handleMouseMove
    rw [if_neg (by simp [hres])]
    rw [if_pos (by simp [hres, hsel])]
    rw [hsel]
    simp [hfind]
  · rintro ⟨de, hde, hcase, hstale⟩
    have hfind : s.elements.findIdx? (fun el => el.id == de.id) = none :=
      findIdx?_eq_none_of_forall _ _ fun el hel => by
        simpa using hstale el hel
    unfold handleMouseMove
    by_cases hA : s.draggedElement = none ∧ s.isDrawing = false ∧ s.isResizing = false
    · rw [if_pos hA]
    · rw [if_neg hA]
      rw [if_neg (by
        rintro ⟨h1, h2⟩
        rcases hcase with hc | hc
        · rw [hc] at h1; exact Bool.false_ne_true h1
        · rw [hc] at h2; exact Bool.false_ne_true h2)]
      rw [if_pos (by simp [hde])]
      rw [hde]
      simp [hfind]

/-- Witness for C7: a resize and a drag against an element list that lacks
the gesture's identifier both leave the state unchanged. -/
theorem stale_gesture_noop_witness :
    (handleMouseMove (fun q => q)
        { elements := [witnessRect], selectedElement :=
            some (Element.circle
              { id := "element-gone", cx := 0, cy := 0, r := 5, fill := "g",
                stroke := "g", strokeWidth := 2 }),
          draggedElement := none, offset := ⟨0, 0⟩, isDrawing := false,
          drawingPath := "", pathPoints := [], gridSize := 20,
          snapToGrid := true, history := [], historyIndex := -1,
          isResizing := true, resizeDirection := "se", initialSize := ⟨0, 0⟩,
          initialPosition := ⟨0, 0⟩ } ⟨7, 7⟩).elements = [witnessRect] := by
  have h := (stale_gesture_noop (fun q => q)
    { elements := [witnessRect], selectedElement :=
        some (Element.circle
          { id := "element-gone", cx := 0, cy := 0, r := 5, fill := "g",
            stroke := "g", strokeWidth := 2 }),
      draggedElement := none, offset := ⟨0, 0⟩, isDrawing := false,
      drawingPath := "", pathPoints := [], gridSize := 20,
      snapToGrid := true, history := [], historyIndex := -1,
      isResizing := true, resizeDirection := "se", initialSize := ⟨0, 0⟩,
      initialPosition := ⟨0, 0⟩ } ⟨7, 7⟩).1
    ⟨Element.circle
      { id := "element-gone", cx := 0, cy := 0, r := 5, fill := "g",
        stroke := "g", strokeWidth := 2 }, rfl, rfl, by decide⟩
  rw [h]

/-! ## Paths without move/line commands (C10) -/

/-- Characters of a chunk produced by the splitter worker come from the
input or the accumulator. -/
theorem mem_of_mem_splitCmdsAux (cs : List Char) :
    ∀ (acc chunk : List Char), chunk ∈ splitCmdsAux cs acc →
      ∀ c ∈ chunk, c ∈ cs ∨ c ∈ acc := by
  induction cs with
  | nil =>
    intro acc chunk hchunk c hc
    simp only [splitCmdsAux, List.mem_singleton] at hchunk
    subst hchunk
    exact Or.inr (List.mem_reverse.mp hc)
  | cons a cs ih =>
    intro acc chunk hchunk c hc
    simp only [splitCmdsAux] at hchunk
    by_cases ha : isCmdLetter a = true
    · rw [if_pos ha] at hchunk
      rcases List.mem_cons.mp hchunk with h | h
      · subst h
        exact Or.inr (List.mem_reverse.mp hc)
      · rcases ih [a] chunk h c hc with h' | h'
        · exact Or.inl (List.mem_cons_of_mem a h')
        · rcases List.mem_singleton.mp h' with rfl
          exact Or.inl (List.mem_cons_self _ _)
    · rw [if_neg ha] at hchunk
      rcases ih (a :: acc) chunk hchunk c hc with h' | h'
      · exact Or.inl (List.mem_cons_of_mem a h')
      · rcases List.mem_cons.mp h' with rfl | h''
        · exact Or.inl (List.mem_cons_self _ _)
        · exact Or.inr h''

/-- Characters of a chunk of `splitCommands l` are characters of `l`. -/
theorem mem_of_mem_splitCommands (l : List Char) (chunk : List Char)
    (hchunk : chunk ∈ splitCommands l) : ∀ c ∈ chunk, c ∈ l := by
  intro c hc
  cases l with
  | nil =>
    simp only [splitCommands, List.mem_singleton] at hchunk
    subst hchunk
    exact absurd hc (List.not_mem_nil c)
  | cons a l =>
    rcases mem_of_mem_splitCmdsAux l [a] chunk hchunk c hc with h | h
    · exact List.mem_cons_of_mem a h
    · rcases List.mem_singleton.mp h with rfl
      exact List.mem_cons_self _ _

/-- A fold whose step fixes the initial state returns it. -/
theorem foldl_fixed {α β : Type} (f : β → α → β) (b : β) (l : List α)
    (h : ∀ a ∈ l, f b a = b) : l.foldl f b = b := by
  induction l with
  | nil => rfl
  | cons a l ih =>
    rw [List.foldl_cons, h a (List.mem_cons_self a l)]
    exact ih fun x hx => h x (List.mem_cons_of_mem a hx)

/-- C10: a path whose `d` contains no `M` or `L` command (equivalently, no
`M`/`L` character, since every occurrence starts a chunk) gets the
degenerate bounding box `{x: ∞, y: ∞, width: -∞, height: -∞}`, and point
containment for it is false at every point. -/
theorem path_without_ml_degenerate (d : String)
    (hd : ∀ c ∈ d.data, ¬(c = 'M' ∨ c = 'L')) (pe : PathElData)
    (hpe : pe.d = d) (p : Point) :
    getBoundingBoxD d = ⟨JNum.posInf, JNum.posInf, JNum.negInf, JNum.negInf⟩ ∧
      isPointInElement p (Element.path pe) = false := by
  have hstep : ∀ cmd ∈ splitCommands d.data,
      bboxStep (JNum.posInf, JNum.posInf, JNum.negInf, JNum.negInf) cmd =
        (JNum.posInf, JNum.posInf, JNum.negInf, JNum.negInf) := by
    intro cmd hcmd
    unfold bboxStep
    rw [if_neg]
    rintro (h | h)
    · have htake : cmd.take 1 = ['M'] := congrArg String.data h
      have hmem' : 'M' ∈ cmd :=
        (List.take_subset 1 cmd) (htake ▸ List.mem_singleton.mpr rfl)
      exact hd 'M' (mem_of_mem_splitCommands d.data cmd hcmd 'M' hmem') (Or.inl rfl)
    · have htake : cmd.take 1 = ['L'] := congrArg String.data h
      have hmem' : 'L' ∈ cmd :=
        (List.take_subset 1 cmd) (htake ▸ List.mem_singleton.mpr rfl)
      exact hd 'L' (mem_of_mem_splitCommands d.data cmd hcmd 'L' hmem') (Or.inr rfl)
  have hbox : getBoundingBoxD d =
      ⟨JNum.posInf, JNum.posInf, JNum.negInf, JNum.negInf⟩ := by
    unfold getBoundingBoxD
    rw [foldl_fixed _ _ _ hstep]
    rfl
  refine ⟨hbox, ?_⟩
  simp only [isPointInElement, getBoundingBox, hpe, hbox]
  simp [JNum.sub, JNum.le]

/-- Witness for C10: a cubic-only path. -/
theorem path_without_ml_degenerate_witness :
    getBoundingBoxD "C 1 2 3 4 5 6" =
        ⟨JNum.posInf, JNum.posInf, JNum.negInf, JNum.negInf⟩ ∧
      isPointInElement ⟨3, 4⟩
        (Element.path
          { id := "p1", d := "C 1 2 3 4 5 6", fill := "none", stroke := "red",
            strokeWidth := 2 }) = false :=
  path_without_ml_degenerate "C 1 2 3 4 5 6" (by decide)
    { id := "p1", d := "C 1 2 3 4 5 6", fill := "none", stroke := "red",
      strokeWidth := 2 } rfl ⟨3, 4⟩

/-! ## Resize clamping (C1) -/

/-- `Math.round(v) ≥ 1` for `v ≥ 1`. -/
theorem one_le_jsRound {v : ℚ} (h : 1 ≤ v) : (1 : ℤ) ≤ jsRound v := by
  unfold jsRound
  rw [Int.le_floor]
  push_cast
  linarith

/-- Clamp-then-snap: with snapping off, or with the program's grid size 20,
`snapToGridValue cfg (max 20 v)` is at least 20, and exactly 20 whenever the
unclamped candidate `v` is at most 20. -/
theorem snap_clamp_min20 (cfg : SnapCfg)
    (h : cfg.snapToGrid = false ∨ cfg.gridSize = 20) (v : ℚ) :
    20 ≤ snapToGridValue cfg (max 20 v) ∧
      (v ≤ 20 → snapToGridValue cfg (max 20 v) = 20) := by
  rcases hs : cfg.snapToGrid with _ | _
  · unfold snapToGridValue
    rw [hs]
    simp only [Bool.false_eq_true, if_false]
    exact ⟨le_max_left 20 v, fun hv => max_eq_left hv⟩
  · have hg : cfg.gridSize = 20 := by
      rcases h with h | h
      · rw [hs] at h; exact absurd h (by simp)
      · exact h
    unfold snapToGridValue
    rw [hs, hg]
    simp only [if_true]
    constructor
    · have h1 : (1 : ℚ) ≤ max 20 v / 20 := by
        rw [le_div_iff (by norm_num)]
        simpa using le_max_left 20 v
      have h2 := one_le_jsRound h1
      have : (1 : ℚ) ≤ (jsRound (max 20 v / 20) : ℚ) := by exact_mod_cast h2
      nlinarith
    · intro hv
      rw [max_eq_left hv]
      norm_num [jsRound]

/-- C1 (amended): when grid snapping is disabled or the grid size is the
program's fixed 20, every width/height computed by the rect/text resize is
at least 20, and when the pointer overshoots so that the unclamped candidate
dimension is at most 20, the computed dimension is exactly 20.  (With
snapping enabled and other grid sizes the minimum is snapped after clamping
and can fall below 20 — see the counterexample.) -/
theorem resize_clamp (cfg : SnapCfg) (dir : String) (isz : Size)
    (ipos pt : Point) (h : cfg.snapToGrid = false ∨ cfg.gridSize = 20) :
    (∀ w, (resizeBox cfg dir isz ipos pt).1 = some w → 20 ≤ w) ∧
      (∀ ht, (resizeBox cfg dir isz ipos pt).2.1 = some ht → 20 ≤ ht) ∧
      (dirIncludes dir 'w' = true → isz.width - (pt.x - ipos.x) ≤ 20 →
        (resizeBox cfg dir isz ipos pt).1 = some 20) ∧
      (dirIncludes dir 'e' = true → dirIncludes dir 'w' = false →
        isz.width + (pt.x - ipos.x) ≤ 20 →
        (resizeBox cfg dir isz ipos pt).1 = some 20) ∧
      (dirIncludes dir 'n' = true → isz.height - (pt.y - ipos.y) ≤ 20 →
        (resizeBox cfg dir isz ipos pt).2.1 = some 20) ∧
      (dirIncludes dir 's' = true → dirIncludes dir 'n' = false →
        isz.height + (pt.y - ipos.y) ≤ 20 →
        (resizeBox cfg dir isz ipos pt).2.1 = some 20) := by
  have key := snap_clamp_min20 cfg h
  unfold resizeBox
  rcases hw : dirIncludes dir 'w' with _ | _ <;>
    rcases he : dirIncludes dir 'e' with _ | _ <;>
      rcases hn : dirIncludes dir 'n' with _ | _ <;>
        rcases hs' : dirIncludes dir 's' with _ | _ <;>
          refine ⟨fun w hw' => ?_, fun ht hh' => ?_, fun c1 c2 => ?_,
            fun c1 c2 c3 => ?_, fun c1 c2 => ?_, fun c1 c2 c3 => ?_⟩ <;>
            simp only [hw, he, hn, hs', Bool.false_eq_true, if_false, if_true] at * <;>
              first
                | exact absurd hw' (Option.noConfusion ·)
                | exact absurd hh' (Option.noConfusion ·)
                | (rcases Option.some.injEq _ _ ▸ hw' with rfl
                   exact (key _).1)
                | (rcases Option.some.injEq _ _ ▸ hh' with rfl
                   exact (key _).1)
                | (rw [(key _).2 (by linarith)])
                | simp_all

/-- Witness for C1 at the scenario of spec §8: rectangle (0,0,100,80),
south-east handle, pointer far past the minimum, grid size 20, snapping on:
both dimensions clamp to exactly 20. -/
theorem resize_clamp_witness :
    (resizeBox ⟨true, 20⟩ "se" ⟨100, 80⟩ ⟨0, 0⟩ ⟨-300, -300⟩).1 = some 20 ∧
      (resizeBox ⟨true, 20⟩ "se" ⟨100, 80⟩ ⟨0, 0⟩ ⟨-300, -300⟩).2.1 = some 20 := by
  have h := resize_clamp ⟨true, 20⟩ "se" ⟨100, 80⟩ ⟨0, 0⟩ ⟨-300, -300⟩ (Or.inr rfl)
  exact ⟨h.2.2.2.1 (by decide) (by decide) (by norm_num),
    h.2.2.2.2.2 (by decide) (by decide) (by norm_num)⟩

/-- C1 counterexample: with snapping on and grid size 15, resizing the
rectangle (0,0,100,80) via the `se` handle far below the minimum yields
width 15 — the `max(20, …)` clamp is applied before grid snapping, and
snapping 20 to a 15-grid gives 15, less than the claimed minimum of 20. -/
theorem resize_clamp_grid15_counterexample :
    (resizeBox ⟨true, 15⟩ "se" ⟨100, 80⟩ ⟨0, 0⟩ ⟨-200, -200⟩).1 = some 15 ∧
      ¬ (20 : ℚ) ≤ 15 := by
  have hw : dirIncludes "se" 'w' = false := by decide
  have he : dirIncludes "se" 'e' = true := by decide
  have hmax : max (20 : ℚ) ((⟨100, 80⟩ : Size).width +
      ((⟨-200, -200⟩ : Point).x - (⟨0, 0⟩ : Point).x)) = 20 := by
    norm_num
  have hfloor : jsRound ((20 : ℚ) / 15) = 1 := by
    unfold jsRound
    rw [Int.floor_eq_iff]
    norm_num
  refine ⟨?_, by norm_num⟩
  simp only [resizeBox, hw, he, Bool.false_eq_true, if_false, if_true, hmax]
  unfold snapToGridValue
  simp only [if_true]
  rw [hfloor]
  norm_num

/-! ## Intensity edits regenerate from the original path (C5) -/

/-- Intensity edits never change the stored source path or the selected
motion type. -/
theorem applyIntensityEdits_path_motionType (sinFn : ℚ → ℚ) (a : Animation)
    (edits : List ((ℕ → ℚ) × ℚ)) :
    (applyIntensityEdits sinFn a edits).path = a.path ∧
      (applyIntensityEdits sinFn a edits).motionType = a.motionType := by
  induction edits generalizing a with
  | nil => exact ⟨rfl, rfl⟩
  | cons e es ih =>
    unfold applyIntensityEdits at ih ⊢
    rw [List.foldl_cons]
    exact ih (setMotionIntensity e.1 sinFn a e.2)

/-- C5: after any sequence of intensity edits on a Path Morph descriptor
(created storing the target path's original `d` and possibly retyped once),
the keyframe values equal the regeneration from the ORIGINAL source path
with the last intensity and that edit's random draws alone — never from a
previously generated variant, so repeated edits cannot compound
distortion — and the stored path is still the original `d`. -/
theorem intensity_edits_use_original_path (sinFn : ℚ → ℚ) (rng0 : ℕ → ℚ)
    (animId nameStr mt : String) (p : PathElData)
    (edits : List ((ℕ → ℚ) × ℚ)) (lastRng : ℕ → ℚ) (lastI : ℚ) :
    (applyIntensityEdits sinFn
        (setMotionType (mkPathMorphAnimation rng0 animId nameStr (Element.path p)) mt)
        (edits ++ [(lastRng, lastI)])).path = some p.d ∧
      (applyIntensityEdits sinFn
          (setMotionType (mkPathMorphAnimation rng0 animId nameStr (Element.path p)) mt)
          (edits ++ [(lastRng, lastI)])).values =
        some (motionPathVariations lastRng sinFn (some mt) p.d lastI) := by
  have hsplit : applyIntensityEdits sinFn
      (setMotionType (mkPathMorphAnimation rng0 animId nameStr (Element.path p)) mt)
      (edits ++ [(lastRng, lastI)]) =
      setMotionIntensity lastRng sinFn
        (applyIntensityEdits sinFn
          (setMotionType (mkPathMorphAnimation rng0 animId nameStr (Element.path p)) mt)
          edits) lastI := by
    unfold applyIntensityEdits
    rw [List.foldl_append]
    rfl
  obtain ⟨hpath, hmt⟩ := applyIntensityEdits_path_motionType sinFn
    (setMotionType (mkPathMorphAnimation rng0 animId nameStr (Element.path p)) mt) edits
  have hpath' : (applyIntensityEdits sinFn
      (setMotionType (mkPathMorphAnimation rng0 animId nameStr (Element.path p)) mt)
      edits).path = some p.d := hpath
  have hmt' : (applyIntensityEdits sinFn
      (setMotionType (mkPathMorphAnimation rng0 animId nameStr (Element.path p)) mt)
      edits).motionType = some mt := hmt
  rw [hsplit]
  unfold setMotionIntensity
  refine ⟨hpath', ?_⟩
  rw [hpath', hmt']
  rfl

/-! ## PathMotion continuity: the last keyframe is the original path (C4) -/

/-- `takeWhile` ignores everything from a failing element on. -/
theorem takeWhile_append_stop {α : Type} (p : α → Bool) (c : α)
    (hc : p c = false) (A B : List α) :
    (A ++ c :: B).takeWhile p = A.takeWhile p := by
  induction A with
  | nil => simp [List.takeWhile_cons, hc]
  | cons a A ih =>
    rw [List.cons_append, List.takeWhile_cons, List.takeWhile_cons]
    cases p a <;> simp [ih]

/-- The last `;`-separated entry of `s ++ ";" ++ t` is that of `t`. -/
theorem lastSemiEntry_append_semi (s t : String) :
    lastSemiEntry (s ++ ";" ++ t) = lastSemiEntry t := by
  unfold lastSemiEntry
  rw [String.data_append, String.data_append]
  have : (";" : String).data = [';'] := rfl
  rw [this]
  rw [List.append_assoc, List.singleton_append, List.reverse_append]
  rw [List.reverse_cons, List.append_assoc, List.singleton_append]
  rw [takeWhile_append_stop _ ';' (by simp) _ _]

/-- A string without `;` is its own last entry. -/
theorem lastSemiEntry_no_semi (t : String) (h : ∀ c ∈ t.data, c ≠ ';') :
    lastSemiEntry t = t := by
  unfold lastSemiEntry
  rw [List.takeWhile_eq_self_iff.mpr]
  · rw [List.reverse_reverse]
  · intro a ha
    simpa using h a (List.mem_reverse.mp ha)

/-- Prepending to a non-empty join adds a separator. -/
theorem joinSep_cons_of_ne_nil (sep x : String) (l : List String) (h : l ≠ []) :
    joinSep sep (x :: l) = x ++ sep ++ joinSep sep l := by
  cases l with
  | nil => exact absurd rfl h
  | cons y ys => rfl

/-- The last `;`-entry of `join(vs ++ [d])` is `d` when `d` has no `;`. -/
theorem lastSemiEntry_joinSep (vs : List String) (d : String)
    (h : ∀ c ∈ d.data, c ≠ ';') :
    lastSemiEntry (joinSep ";" (vs ++ [d])) = d := by
  induction vs with
  | nil => exact lastSemiEntry_no_semi d h
  | cons v vs ih =>
    rw [List.cons_append,
      joinSep_cons_of_ne_nil ";" v (vs ++ [d]) (by simp),
      lastSemiEntry_append_semi]
    exact ih

/-- C4: for every source path-data string (which, being path data, contains
no `;`), every intensity, every variation count, every random stream and
sine oracle, the last entry of the generated semicolon-separated keyframe
list equals the original source string exactly, for all three strategies
(morph/random, jitter, wave): each generator appends the original
`pathData` verbatim as the final keyframe. -/
theorem pathmotion_last_keyframe (rng : ℕ → ℚ) (sinFn : ℚ → ℚ) (d : String)
    (intensity : ℚ) (n : ℕ) (hd : ∀ c ∈ d.data, c ≠ ';') :
    lastSemiEntry (generatePathVariations rng d n intensity) = d ∧
      lastSemiEntry (generateJitterPaths rng d intensity n) = d ∧
      lastSemiEntry (generateWavePaths sinFn d intensity n) = d := by
  refine ⟨?_, ?_, ?_⟩
  · unfold generatePathVariations
    exact lastSemiEntry_joinSep _ d hd
  · unfold generateJitterPaths
    exact lastSemiEntry_joinSep _ d hd
  · unfold generateWavePaths
    exact lastSemiEntry_joinSep _ d hd

/-- Witness for C4 at a concrete path, intensity and stream. -/
theorem pathmotion_last_keyframe_witness :
    lastSemiEntry
        (generatePathVariations (fun _ => 1/2) "M 0 0 L 10 10" 5 3) =
      "M 0 0 L 10 10" ∧
      lastSemiEntry
          (generateJitterPaths (fun _ => 1/2) "M 0 0 L 10 10" 3 5) =
        "M 0 0 L 10 10" ∧
      lastSemiEntry
          (generateWavePaths (fun _ => 0) "M 0 0 L 10 10" 3 5) =
        "M 0 0 L 10 10" :=
  pathmotion_last_keyframe (fun _ => 1/2) (fun _ => 0) "M 0 0 L 10 10" 3 5
    (by decide)

/-! ## Undo/redo inverse (C2) -/

/-- A state whose element list already equals the current snapshot (or is
empty with no snapshot) never satisfies the recording condition. -/
theorem not_recordCond_of_restore (s : EditorState)
    (h : s.elements = (historyAt s.history s.historyIndex).getD []) :
    ¬ recordCond s := by
  rcases hcase : historyAt s.history s.historyIndex with _ | v
  · rw [hcase] at h
    rintro ⟨hlen, -⟩
    rw [h] at hlen
    exact absurd hlen (by simp)
  · rw [hcase] at h
    simp only [Option.getD_some] at h
    rintro ⟨hlen, hne | hne⟩
    · have : s.history = [] := List.length_eq_zero.mp hne
      rw [this] at hcase
      unfold historyAt at hcase
      split at hcase
      · exact Option.noConfusion hcase
      · simp at hcase
    · exact hne (h ▸ hcase)

/-- `undo` below the boundary: decrement the index and restore that
snapshot; the re-triggered history effect is a no-op. -/
theorem undo_spec (s : EditorState) (h : 0 < s.historyIndex) :
    undo s = { s with
               historyIndex := s.historyIndex - 1
               elements := (historyAt s.history (s.historyIndex - 1)).getD [] } := by
  unfold undo
  rw [if_pos h]
  unfold recordHistory
  rw [if_neg (not_recordCond_of_restore _ rfl)]

/-- `undo` at the boundary is a no-op. -/
theorem undo_noop (s : EditorState) (h : ¬ 0 < s.historyIndex) : undo s = s := by
  unfold undo
  rw [if_neg h]

/-- `redo` below the boundary: increment the index and restore that
snapshot; the re-triggered history effect is a no-op. -/
theorem redo_spec (s : EditorState)
    (h : s.historyIndex < (s.history.length : ℤ) - 1) :
    redo s = { s with
               historyIndex := s.historyIndex + 1
               elements := (historyAt s.history (s.historyIndex + 1)).getD [] } := by
  unfold redo
  rw [if_pos h]
  unfold recordHistory
  rw [if_neg (not_recordCond_of_restore _ rfl)]

/-- Iterated `undo` from a consistent state: the history is untouched, the
index falls by `n`, and the elements are the snapshot `n` entries back. -/
theorem undo_iter (n : ℕ) : ∀ (s : EditorState), (n : ℤ) ≤ s.historyIndex →
    historyAt s.history s.historyIndex = some s.elements →
    (undo^[n] s).history = s.history ∧
      (undo^[n] s).historyIndex = s.historyIndex - n ∧
      (undo^[n] s).elements =
        (historyAt s.history (s.historyIndex - n)).getD [] := by
  induction n with
  | zero =>
    intro s _ hcur
    refine ⟨rfl, by simp, ?_⟩
    simp only [Function.iterate_zero_apply, Nat.cast_zero, sub_zero]
    rw [hcur]
    rfl
  | succ n ih =>
    intro s hn hcur
    have hn' : (n : ℤ) ≤ s.historyIndex := by push_cast at hn ⊢; omega
    obtain ⟨h1, h2, h3⟩ := ih s hn' hcur
    have hpos : 0 < (undo^[n] s).historyIndex := by
      rw [h2]; push_cast at hn ⊢; omega
    rw [Function.iterate_succ_apply', undo_spec _ hpos]
    have hidxeq : s.historyIndex - (n : ℤ) - 1 = s.historyIndex - ((n + 1 : ℕ) : ℤ) := by
      push_cast
      ring
    refine ⟨h1, ?_, ?_⟩
    · show (undo^[n] s).historyIndex - 1 = s.historyIndex - ((n + 1 : ℕ) : ℤ)
      rw [h2, hidxeq]
    · show (historyAt (undo^[n] s).history ((undo^[n] s).historyIndex - 1)).getD [] =
        (historyAt s.history (s.historyIndex - ((n + 1 : ℕ) : ℤ))).getD []
      rw [h1, h2, hidxeq]

/-- Iterated `redo` from a consistent state: the history is untouched, the
index rises by `n`, and the elements are the snapshot `n` entries forward. -/
theorem redo_iter (n : ℕ) : ∀ (s : EditorState),
    s.historyIndex + n ≤ (s.history.length : ℤ) - 1 →
    historyAt s.history s.historyIndex = some s.elements →
    (redo^[n] s).history = s.history ∧
      (redo^[n] s).historyIndex = s.historyIndex + n ∧
      (redo^[n] s).elements =
        (historyAt s.history (s.historyIndex + n)).getD [] := by
  induction n with
  | zero =>
    intro s _ hcur
    refine ⟨rfl, by simp, ?_⟩
    simp only [Function.iterate_zero_apply, Nat.cast_zero, add_zero]
    rw [hcur]
    rfl
  | succ n ih =>
    intro s hn hcur
    have hn' : s.historyIndex + (n : ℤ) ≤ (s.history.length : ℤ) - 1 := by
      push_cast at hn ⊢; omega
    obtain ⟨h1, h2, h3⟩ := ih s hn' hcur
    have hlt : (redo^[n] s).historyIndex < ((redo^[n] s).history.length : ℤ) - 1 := by
      rw [h1, h2]; push_cast at hn ⊢; omega
    rw [Function.iterate_succ_apply', redo_spec _ hlt]
    have hidxeq : s.historyIndex + (n : ℤ) + 1 = s.historyIndex + ((n + 1 : ℕ) : ℤ) := by
      push_cast
      ring
    refine ⟨h1, ?_, ?_⟩
    · show (redo^[n] s).historyIndex + 1 = s.historyIndex + ((n + 1 : ℕ) : ℤ)
      rw [h2, hidxeq]
    · show (historyAt (redo^[n] s).history ((redo^[n] s).historyIndex + 1)).getD [] =
        (historyAt s.history (s.historyIndex + ((n + 1 : ℕ) : ℤ))).getD []
      rw [h1, h2, hidxeq]

/-- One recorded edit: truncate the redo tail, append the new snapshot,
advance the index. -/
theorem applyEdit_spec (s : EditorState) (f : List Element → List Element)
    (h0 : 0 ≤ s.historyIndex) (hlt : s.historyIndex < (s.history.length : ℤ))
    (hrec : recordCond { s with elements := f s.elements }) :
    applyEdit f s = { s with
                      elements := f s.elements
                      history := s.history.take (s.historyIndex + 1).toNat ++
                        [f s.elements]
                      historyIndex := s.historyIndex + 1 } := by
  unfold applyEdit recordHistory
  rw [if_pos hrec]
  have hlen : ((s.historyIndex + 1).toNat) ≤ s.history.length := by omega
  have : (s.history.take (s.historyIndex + 1).toNat ++ [f s.elements]).length =
      (s.historyIndex + 1).toNat + 1 := by
    rw [List.length_append, List.length_take]
    simp [Nat.min_eq_left hlen]
  simp only [this]
  congr 1
  omega

/-- The cumulative effect of a recorded edit sequence: consistency is
preserved, the index advances by the number of edits, the history holds
exactly the retained prefix plus the new snapshots, and all snapshots at or
before the starting index are unchanged. -/
theorem applyEdits_spec : ∀ (fs : List (List Element → List Element))
    (s : EditorState), 0 ≤ s.historyIndex →
    s.historyIndex < (s.history.length : ℤ) →
    historyAt s.history s.historyIndex = some s.elements →
    editsRecorded s fs →
    (0 ≤ (applyEdits fs s).historyIndex ∧
        (applyEdits fs s).historyIndex < ((applyEdits fs s).history.length : ℤ) ∧
        historyAt (applyEdits fs s).history (applyEdits fs s).historyIndex =
          some (applyEdits fs s).elements) ∧
      (applyEdits fs s).historyIndex = s.historyIndex + fs.length ∧
      (fs ≠ [] →
        ((applyEdits fs s).history.length : ℤ) = s.historyIndex + 1 + fs.length) ∧
      (∀ j : ℤ, 0 ≤ j → j ≤ s.historyIndex →
        historyAt (applyEdits fs s).history j = historyAt s.history j) := by
  intro fs
  induction fs with
  | nil =>
    intro s h0 hlt hcur _
    refine ⟨⟨h0, hlt, hcur⟩, by simp [applyEdits], fun h => absurd rfl h,
      fun j _ _ => rfl⟩
  | cons f fs ih =>
    intro s h0 hlt hcur hrec
    obtain ⟨hr1, hr2⟩ := hrec
    have hstep := applyEdit_spec s f h0 hlt hr1
    have happ : applyEdits (f :: fs) s = applyEdits fs (applyEdit f s) := by
      unfold applyEdits
      rw [List.foldl_cons]
    have htoNat : (s.historyIndex + 1).toNat = s.historyIndex + 1 := by omega
    have hlen' : ((applyEdit f s).history.length : ℤ) = s.historyIndex + 2 := by
      rw [hstep]
      dsimp only
      rw [List.length_append, List.length_take]
      have h1 : (s.historyIndex + 1).toNat ≤ s.history.length :=
        Int.toNat_le.mpr (Int.add_one_le_iff.mpr hlt)
      rw [Nat.min_eq_left h1, Nat.cast_add, htoNat, List.length_singleton]
      norm_num
      ring
    have h0' : 0 ≤ (applyEdit f s).historyIndex := by rw [hstep]; dsimp; omega
    have hlt' : (applyEdit f s).historyIndex <
        ((applyEdit f s).history.length : ℤ) := by
      rw [hlen', hstep]
      dsimp
      omega
    have hidx' : (applyEdit f s).historyIndex = s.historyIndex + 1 := by
      rw [hstep]
    have hcur' : historyAt (applyEdit f s).history (applyEdit f s).historyIndex =
        some (applyEdit f s).elements := by
      rw [hstep]
      dsimp only
      unfold historyAt
      rw [if_neg (by omega)]
      have hlentake : (s.history.take (s.historyIndex + 1).toNat).length =
          (s.historyIndex + 1).toNat := by
        rw [List.length_take]
        exact Nat.min_eq_left (by omega)
      have hg := List.get?_concat_length
        (s.history.take (s.historyIndex + 1).toNat) (f s.elements)
      rw [hlentake] at hg
      exact hg
    have hpres' : ∀ j : ℤ, 0 ≤ j → j ≤ s.historyIndex →
        historyAt (applyEdit f s).history j = historyAt s.history j := by
      intro j hj0 hjle
      rw [hstep]
      dsimp only
      unfold historyAt
      rw [if_neg (by omega), if_neg (by omega)]
      rw [List.get?_append, List.get?_take]
      · omega
      · rw [List.length_take]
        have : j.toNat < (s.historyIndex + 1).toNat := by omega
        omega
    obtain ⟨hInv, hidx, hlen, hpres⟩ := ih (applyEdit f s) h0' hlt' hcur' hr2
    rw [happ]
    refine ⟨hInv, ?_, ?_, ?_⟩
    · rw [hidx, hidx']
      simp only [List.length_cons]
      push_cast
      omega
    · intro _
      rcases fs with _ | ⟨g, gs⟩
      · rw [show applyEdits ([] : List (List Element → List Element))
            (applyEdit f s) = applyEdit f s from rfl, hlen']
        simp only [List.length_cons, List.length_nil]
        push_cast
        omega
      · rw [hlen (List.cons_ne_nil _ _), hidx']
        simp only [List.length_cons]
        push_cast
        omega
    · intro j hj0 hjle
      rw [hpres j hj0 (by omega), hpres' j hj0 hjle]

/-- C2 (amended): provided the starting scene is consistent with the
history — the current snapshot `history[historyIndex]` (with
`0 ≤ historyIndex < history.length`) equals the element list, as holds
whenever the scene has ever been recorded — performing `n` undos after `n`
recorded edits returns the elements to the pre-edit state, and `n` redos
then return them to the post-edit state.  (The out-of-the-box empty scene
is never recorded, so the claim fails without this hypothesis — see the
counterexample.) -/
theorem undo_redo_inverse (s0 : EditorState)
    (fs : List (List Element → List Element)) (h0 : 0 ≤ s0.historyIndex)
    (hlt : s0.historyIndex < (s0.history.length : ℤ))
    (hcur : historyAt s0.history s0.historyIndex = some s0.elements)
    (hrec : editsRecorded s0 fs) :
    (undo^[fs.length] (applyEdits fs s0)).elements = s0.elements ∧
      (redo^[fs.length] (undo^[fs.length] (applyEdits fs s0))).elements =
        (applyEdits fs s0).elements := by
  rcases hfs : fs with _ | ⟨g, gs⟩
  · exact ⟨rfl, rfl⟩
  rw [← hfs]
  have hfsne : fs ≠ [] := by rw [hfs]; exact List.cons_ne_nil _ _
  obtain ⟨⟨hI0, hIlt, hIcur⟩, hidx, hlenfn, hpres⟩ :=
    applyEdits_spec fs s0 h0 hlt hcur hrec
  have hlen := hlenfn hfsne
  have hnle : (fs.length : ℤ) ≤ (applyEdits fs s0).historyIndex := by
    rw [hidx]; omega
  obtain ⟨hu1, hu2, hu3⟩ := undo_iter fs.length (applyEdits fs s0) hnle hIcur
  have hback : (applyEdits fs s0).historyIndex - fs.length = s0.historyIndex := by
    rw [hidx]; ring
  have hat : historyAt (applyEdits fs s0).history
      ((applyEdits fs s0).historyIndex - fs.length) = some s0.elements := by
    rw [hback, hpres s0.historyIndex h0 le_rfl, hcur]
  have hels : (undo^[fs.length] (applyEdits fs s0)).elements = s0.elements := by
    rw [hu3, hat]
    rfl
  refine ⟨hels, ?_⟩
  have hucur : historyAt (undo^[fs.length] (applyEdits fs s0)).history
      (undo^[fs.length] (applyEdits fs s0)).historyIndex =
      some (undo^[fs.length] (applyEdits fs s0)).elements := by
    rw [hu1, hu2, hat, hels]
  have hbound : (undo^[fs.length] (applyEdits fs s0)).historyIndex + fs.length ≤
      ((undo^[fs.length] (applyEdits fs s0)).history.length : ℤ) - 1 := by
    rw [hu1, hu2, hidx, hlen]
    omega
  obtain ⟨hr1, hr2, hr3⟩ :=
    redo_iter fs.length (undo^[fs.length] (applyEdits fs s0)) hbound hucur
  rw [hr3, hu1, hu2]
  have hfwd : (applyEdits fs s0).historyIndex - fs.length + fs.length =
      (applyEdits fs s0).historyIndex := by ring
  rw [hfwd, hIcur]
  rfl

/-- The component's initial state: empty scene, empty history, index `-1`. -/
def emptyInitialState : EditorState :=
  { elements := [], selectedElement := none, draggedElement := none,
    offset := ⟨0, 0⟩, isDrawing := false, drawingPath := "", pathPoints := [],
    gridSize := 20, snapToGrid := true, history := [], historyIndex := -1,
    isResizing := false, resizeDirection := "", initialSize := ⟨0, 0⟩,
    initialPosition := ⟨0, 0⟩ }

/-- C2 counterexample: starting from the initial empty scene, one edit that
adds a rectangle is recorded (the recording condition holds), yet one undo
does not return the elements to the pre-edit (empty) state: the empty
initial scene was never recorded, and the undo at index 0 is a no-op. -/
theorem undo_redo_counterexample :
    editsRecorded emptyInitialState [fun _ => [witnessRect]] ∧
      (undo (applyEdits [fun _ => [witnessRect]] emptyInitialState)).elements ≠
        emptyInitialState.elements := by
  constructor
  · exact ⟨⟨by decide, Or.inl rfl⟩, trivial⟩
  · decide

/-- Witness for C2: from a recorded one-element scene, one recorded edit,
one undo and one redo restore the pre- and post-edit elements. -/
theorem undo_redo_inverse_witness :
    (undo^[1] (applyEdits [fun l => witnessRect :: l] witnessHistState)).elements =
        [witnessRect] ∧
      (redo^[1]
          (undo^[1] (applyEdits [fun l => witnessRect :: l] witnessHistState))).elements =
        (applyEdits [fun l => witnessRect :: l] witnessHistState).elements := by
  have h := undo_redo_inverse witnessHistState [fun l => witnessRect :: l]
    (by decide) (by decide) (by decide) ⟨⟨by decide, by decide⟩, trivial⟩
  exact ⟨h.1, h.2⟩

/-! ## Path codec round trip (C3)

The claim quantifies over path-data strings "composed solely of M and L
commands, each with a numeric coordinate pair".  The grammar below makes
that precise, following the syntax the parser accepts per command
(`<letter><ws>*<x>[,|ws]<y>`): an `M`/`L` letter, optional whitespace, a
signed decimal numeral, exactly one comma-or-whitespace separator, a second
numeral, and trailing whitespace; commands concatenated directly. -/

/-- A decimal numeral: optional minus sign, integer digits, optional
fraction digits after a dot. -/
structure Numeral where
  neg : Bool
  intPart : List Char
  frac : Option (List Char)

/-- The characters of an optional fraction part. -/
def fracChars : Option (List Char) → List Char
  | some f => '.' :: f
  | none => []

/-- The characters of a numeral. -/
def Numeral.chars (n : Numeral) : List Char :=
  (if n.neg then ['-'] else []) ++ n.intPart ++ fracChars n.frac

/-- The rational value a numeral denotes. -/
def Numeral.val (n : Numeral) : ℚ :=
  let m := mantissaVal n.intPart (n.frac.getD [])
  if n.neg then -m else m

/-- Well-formedness: a non-empty all-digit integer part and all-digit
fraction. -/
def Numeral.WF (n : Numeral) : Prop :=
  n.intPart ≠ [] ∧ (∀ c ∈ n.intPart, isDigitChar c = true) ∧
    (∀ f, n.frac = some f → ∀ c ∈ f, isDigitChar c = true)

/-- One `M`/`L` command of the claim's grammar. -/
structure MLCmd where
  letter : Char
  ws1 : List Char
  x : Numeral
  sep : Char
  y : Numeral
  ws2 : List Char

/-- The characters of a command. -/
def MLCmd.chars (c : MLCmd) : List Char :=
  c.letter :: (c.ws1 ++ c.x.chars ++ c.sep :: (c.y.chars ++ c.ws2))

/-- Well-formedness: an uppercase `M`/`L` letter, whitespace runs, a single
separator, well-formed numerals. -/
def MLCmd.WF (c : MLCmd) : Prop :=
  (c.letter = 'M' ∨ c.letter = 'L') ∧ (∀ a ∈ c.ws1, jsWS a = true) ∧
    c.x.WF ∧ sepChar c.sep = true ∧ c.y.WF ∧ (∀ a ∈ c.ws2, jsWS a = true)

/-- The path-data string of a command list. -/
def mlPathString (cmds : List MLCmd) : String :=
  String.mk (cmds.map MLCmd.chars).flatten

/-- The segment a command denotes: the command letter with the numeral
values. -/
def MLCmd.seg (c : MLCmd) : PathSeg :=
  PathSeg.coord (String.mk [c.letter]) (JNum.fin c.x.val) (JNum.fin c.y.val)

/-! ### Character-class facts -/

/-- The ten digit characters. -/
theorem isDigitChar_cases {c : Char} (h : isDigitChar c = true) :
    c = '0' ∨ c = '1' ∨ c = '2' ∨ c = '3' ∨ c = '4' ∨
      c = '5' ∨ c = '6' ∨ c = '7' ∨ c = '8' ∨ c = '9' := by
  unfold isDigitChar at h
  exact of_decide_eq_true h

/-- Digits are not whitespace, separators, command letters, signs, dots or
letters used by `parseFloat`. -/
theorem digit_facts {c : Char} (h : isDigitChar c = true) :
    jsWS c = false ∧ sepChar c = false ∧ tokenChar c = true ∧
      isCmdLetter c = false ∧ c ≠ '-' ∧ c ≠ '+' ∧ c ≠ '.' ∧ c ≠ 'I' := by
  rcases isDigitChar_cases h with rfl|rfl|rfl|rfl|rfl|rfl|rfl|rfl|rfl|rfl <;> decide

/-- Whitespace characters are not command letters, digits, separator-free
token characters, signs or dots. -/
theorem ws_facts {c : Char} (h : jsWS c = true) :
    isCmdLetter c = false ∧ sepChar c = true ∧ tokenChar c = false ∧
      isDigitChar c = false := by
  unfold jsWS at h
  rcases of_decide_eq_true h with rfl|rfl|rfl|rfl|rfl|rfl <;> decide

/-- Separator characters are not token characters. -/
theorem sep_not_token {c : Char} (h : sepChar c = true) : tokenChar c = false := by
  unfold tokenChar
  rw [h]
  decide

/-- The characters of a well-formed numeral are digits, `-` or `.`. -/
theorem numeral_chars_classes (n : Numeral) (h : n.WF) :
    ∀ c ∈ n.chars, isDigitChar c = true ∨ c = '-' ∨ c = '.' := by
  obtain ⟨-, hint, hfrac⟩ := h
  intro c hc
  unfold Numeral.chars at hc
  rw [List.mem_append, List.mem_append] at hc
  rcases hc with (hc | hc) | hc
  · rcases hn : n.neg with _ | _ <;> rw [hn] at hc
    · exact absurd hc (List.not_mem_nil c)
    · rcases List.mem_singleton.mp hc with rfl
      exact Or.inr (Or.inl rfl)
  · exact Or.inl (hint c hc)
  · rcases hf : n.frac with _ | f <;> rw [hf] at hc <;> unfold fracChars at hc
    · exact absurd hc (List.not_mem_nil c)
    · rcases List.mem_cons.mp hc with rfl | hc'
      · exact Or.inr (Or.inr rfl)
      · exact Or.inl (hfrac f hf c hc')

/-- Numeral characters are token characters and not command letters, not
whitespace. -/
theorem numeral_chars_token (n : Numeral) (h : n.WF) :
    ∀ c ∈ n.chars, tokenChar c = true ∧ isCmdLetter c = false ∧ jsWS c = false := by
  intro c hc
  rcases numeral_chars_classes n h c hc with hd | rfl | rfl
  · obtain ⟨h1, -, h3, h4, -⟩ := digit_facts hd
    exact ⟨h3, h4, h1⟩
  · exact ⟨by decide, by decide, by decide⟩
  · exact ⟨by decide, by decide, by decide⟩

/-- A well-formed numeral starts with a sign or digit: a non-whitespace,
non-`+`, non-`.`, non-`I` token character; when unsigned the head is a digit. -/
theorem numeral_head (n : Numeral) (h : n.WF) :
    ∃ d t, n.chars = d :: t ∧ jsWS d = false ∧ tokenChar d = true := by
  obtain ⟨hne, hint, -⟩ := h
  rcases hn : n.neg with _ | _ <;> unfold Numeral.chars <;> rw [hn]
  · rcases hi : n.intPart with _ | ⟨d, ds⟩
    · exact absurd hi hne
    · refine ⟨d, ds ++ fracChars n.frac, by simp, ?_, ?_⟩
      · exact (digit_facts (hint d (by rw [hi]; exact List.mem_cons_self _ _))).1
      · exact (digit_facts (hint d (by rw [hi]; exact List.mem_cons_self _ _))).2.2.1
  · exact ⟨'-', n.intPart ++ fracChars n.frac, by simp, by decide, by decide⟩

/-! ### takeWhile / dropWhile over structured lists -/

/-- `takeWhile` runs through a satisfying prefix. -/
theorem takeWhile_append_all {α : Type} (p : α → Bool) (xs ys : List α)
    (h : ∀ x ∈ xs, p x = true) :
    (xs ++ ys).takeWhile p = xs ++ ys.takeWhile p := by
  induction xs with
  | nil => rfl
  | cons a xs ih =>
    have ha : p a = true := h a (List.mem_cons_self _ _)
    have ih' := ih fun x hx => h x (List.mem_cons_of_mem a hx)
    simp [List.takeWhile_cons, ha, ih']

/-- `dropWhile` skips a satisfying prefix. -/
theorem dropWhile_append_all {α : Type} (p : α → Bool) (xs ys : List α)
    (h : ∀ x ∈ xs, p x = true) :
    (xs ++ ys).dropWhile p = ys.dropWhile p := by
  induction xs with
  | nil => rfl
  | cons a xs ih =>
    have ha : p a = true := h a (List.mem_cons_self _ _)
    have ih' := ih fun x hx => h x (List.mem_cons_of_mem a hx)
    simp [List.dropWhile_cons, ha, ih']

/-- `takeWhile` of a failing-headed list is empty. -/
theorem takeWhile_eq_nil_of_head {α : Type} (p : α → Bool) (l : List α)
    (h : ∀ x ∈ l.take 1, p x = false) : l.takeWhile p = [] := by
  cases l with
  | nil => rfl
  | cons a l =>
    have ha : p a = false := h a (by simp)
    simp [List.takeWhile_cons, ha]

/-- `dropWhile` of a failing-headed list is the list. -/
theorem dropWhile_eq_self_of_head {α : Type} (p : α → Bool) (l : List α)
    (h : ∀ x ∈ l.take 1, p x = false) : l.dropWhile p = l := by
  cases l with
  | nil => rfl
  | cons a l =>
    have ha : p a = false := h a (by simp)
    simp [List.dropWhile_cons, ha]

/-! ### The splitter on well-formed chunk sequences -/

/-- Consuming letter-free characters only moves them into the accumulator. -/
theorem splitCmdsAux_append_pending :
    ∀ (pending tail acc : List Char), (∀ a ∈ pending, isCmdLetter a = false) →
      splitCmdsAux (pending ++ tail) acc =
        splitCmdsAux tail (pending.reverse ++ acc) := by
  intro pending
  induction pending with
  | nil => intro tail acc _; simp
  | cons p ps ih =>
    intro tail acc hp
    have hpl : isCmdLetter p = false := hp p (List.mem_cons_self _ _)
    rw [List.cons_append]
    show (if isCmdLetter p = true then acc.reverse :: splitCmdsAux (ps ++ tail) [p]
          else splitCmdsAux (ps ++ tail) (p :: acc)) =
      splitCmdsAux tail ((p :: ps).reverse ++ acc)
    rw [hpl, if_neg Bool.false_ne_true]
    rw [ih tail (p :: acc) fun a ha => hp a (List.mem_cons_of_mem p ha)]
    rw [List.reverse_cons, List.append_assoc, List.singleton_append]

/-- The splitter worker maps a concatenation of letter-headed chunks to the
pending accumulator followed by those chunks. -/
theorem splitCmdsAux_join :
    ∀ (chunks : List (List Char)) (acc : List Char),
      (∀ ch ∈ chunks, ∃ c cs, ch = c :: cs ∧ isCmdLetter c = true ∧
        ∀ a ∈ cs, isCmdLetter a = false) →
      splitCmdsAux chunks.flatten acc = acc.reverse :: chunks := by
  intro chunks
  induction chunks with
  | nil => intro acc _; simp [splitCmdsAux]
  | cons ch rest ih =>
    intro acc hch
    obtain ⟨c, cs, rfl, hc, hcs⟩ := hch ch (List.mem_cons_self _ _)
    rw [List.flatten_cons, List.cons_append]
    show (if isCmdLetter c = true then acc.reverse :: splitCmdsAux (cs ++ rest.flatten) [c]
          else splitCmdsAux (cs ++ rest.flatten) (c :: acc)) = _
    rw [hc, if_pos rfl]
    rw [splitCmdsAux_append_pending cs rest.flatten [c] hcs]
    rw [ih (cs.reverse ++ [c]) fun x hx => hch x (List.mem_cons_of_mem _ hx)]
    simp

/-- `split(/(?=[MLHVCSQTAZmlhvcsqtaz])/)` recovers a non-empty sequence of
letter-headed chunks from their concatenation. -/
theorem splitCommands_join (chunks : List (List Char)) (hne : chunks ≠ [])
    (hch : ∀ ch ∈ chunks, ∃ c cs, ch = c :: cs ∧ isCmdLetter c = true ∧
      ∀ a ∈ cs, isCmdLetter a = false) :
    splitCommands chunks.flatten = chunks := by
  rcases chunks with _ | ⟨ch, rest⟩
  · exact absurd rfl hne
  obtain ⟨c, cs, rfl, hc, hcs⟩ := hch ch (List.mem_cons_self _ _)
  rw [List.flatten_cons, List.cons_append]
  show splitCmdsAux (cs ++ rest.flatten) [c] = (c :: cs) :: rest
  rw [splitCmdsAux_append_pending cs rest.flatten [c] hcs]
  rw [splitCmdsAux_join rest (cs.reverse ++ [c])
    fun x hx => hch x (List.mem_cons_of_mem _ hx)]
  simp

/-! ### `parseFloat` on well-formed numerals -/

/-- A digit-headed list has no sign to parse. -/
theorem parseSign_digit {d : Char} (hd : isDigitChar d = true) (l : List Char) :
    parseSign (d :: l) = (false, d :: l) := by
  rcases isDigitChar_cases hd with rfl|rfl|rfl|rfl|rfl|rfl|rfl|rfl|rfl|rfl <;> rfl

/-- A digit-headed list is not the literal `Infinity`. -/
theorem take8_ne_infinity {d : Char} (hd : isDigitChar d = true) (l : List Char) :
    ¬ (d :: l).take 8 = "Infinity".data := by
  intro h
  rw [List.take_succ_cons] at h
  have : d = 'I' := List.head_eq_of_cons_eq h
  exact (digit_facts hd).2.2.2.2.2.2.2 this

/-- `parseMantissa` on digits-dot-digits evaluates to the exact mantissa
value. -/
theorem parseMantissa_spec (neg : Bool) (I : List Char) (F : Option (List Char))
    (hne : I ≠ []) (hI : ∀ c ∈ I, isDigitChar c = true)
    (hF : ∀ f, F = some f → ∀ c ∈ f, isDigitChar c = true) :
    parseMantissa neg (I ++ fracChars F) =
      JNum.fin (if neg then -(mantissaVal I (F.getD []))
                else mantissaVal I (F.getD [])) := by
  obtain ⟨d, ds, rfl⟩ : ∃ d ds, I = d :: ds := by
    cases I with
    | nil => exact absurd rfl hne
    | cons d ds => exact ⟨d, ds, rfl⟩
  have hd : isDigitChar d = true := hI d (List.mem_cons_self _ _)
  have htake : ((d :: ds) ++ fracChars F).takeWhile isDigitChar =
      (d :: ds) ++ (fracChars F).takeWhile isDigitChar :=
    takeWhile_append_all _ _ _ hI
  have hdrop : ((d :: ds) ++ fracChars F).dropWhile isDigitChar =
      (fracChars F).dropWhile isDigitChar :=
    dropWhile_append_all _ _ _ hI
  have hdot : isDigitChar '.' = false := by decide
  have htwF : (fracChars F).takeWhile isDigitChar = [] := by
    cases F with
    | none => rfl
    | some f =>
      unfold fracChars
      rw [List.takeWhile_cons, hdot]
      rfl
  have hdwF : (fracChars F).dropWhile isDigitChar = fracChars F := by
    cases F with
    | none => rfl
    | some f =>
      unfold fracChars
      rw [List.dropWhile_cons, hdot]
      rfl
  have hfp : parseFracPart (fracChars F) = (F.getD [], []) := by
    cases F with
    | none => rfl
    | some f =>
      show (f.takeWhile isDigitChar, f.dropWhile isDigitChar) = (f, [])
      rw [List.takeWhile_eq_self_iff.mpr (hF f rfl),
        List.dropWhile_eq_nil_iff.mpr fun c hc => (hF f rfl c hc)]
  simp only [parseMantissa]
  rw [if_neg (by rw [List.cons_append]; exact take8_ne_infinity hd _)]
  rw [htake, htwF, List.append_nil, hdrop, hdwF, hfp]
  rw [if_neg (by rintro ⟨h1, -⟩; exact List.cons_ne_nil d ds h1)]
  show JNum.fin (if neg then -(mantissaVal (d :: ds) (F.getD []) * 10 ^ parseExpPart [])
    else mantissaVal (d :: ds) (F.getD []) * 10 ^ parseExpPart []) = _
  have hexp : parseExpPart [] = 0 := rfl
  rw [hexp, zpow_zero, mul_one]

/-- `parseFloat` reads a well-formed numeral back to its exact value. -/
theorem jsParseFloatAux_numeral (n : Numeral) (h : n.WF) :
    jsParseFloatAux n.chars = JNum.fin n.val := by
  obtain ⟨hne, hint, hfrac⟩ := h
  obtain ⟨d, ds, hi⟩ : ∃ d ds, n.intPart = d :: ds := by
    cases hI : n.intPart with
    | nil => exact absurd hI hne
    | cons d ds => exact ⟨d, ds, rfl⟩
  have hd : isDigitChar d = true := hint d (by rw [hi]; exact List.mem_cons_self _ _)
  have hspec := parseMantissa_spec n.neg n.intPart n.frac hne hint hfrac
  rcases hn : n.neg with _ | _
  · have hchars : n.chars = d :: (ds ++ fracChars n.frac) := by
      unfold Numeral.chars
      rw [hn, hi]
      simp
    simp only [jsParseFloatAux]
    rw [hchars]
    rw [dropWhile_eq_self_of_head jsWS _ (by
      intro x hx
      rcases List.mem_singleton.mp (by simpa using hx) with rfl
      exact (digit_facts hd).1)]
    rw [parseSign_digit hd]
    show parseMantissa false (d :: (ds ++ fracChars n.frac)) = JNum.fin n.val
    rw [hn] at hspec
    rw [← List.cons_append, ← hi, hspec]
    unfold Numeral.val
    rw [hn]
  · have hchars : n.chars = '-' :: (n.intPart ++ fracChars n.frac) := by
      unfold Numeral.chars
      rw [hn]
      simp
    simp only [jsParseFloatAux]
    rw [hchars]
    rw [dropWhile_eq_self_of_head jsWS _ (by
      intro x hx
      rcases List.mem_singleton.mp (by simpa using hx) with rfl
      decide)]
    rw [show parseSign ('-' :: (n.intPart ++ fracChars n.frac)) =
      (true, n.intPart ++ fracChars n.frac) from rfl]
    show parseMantissa true (n.intPart ++ fracChars n.frac) = JNum.fin n.val
    rw [hn] at hspec
    rw [hspec]
    unfold Numeral.val
    rw [hn]

/-! ### Decimal rendering reads back to the same value -/

/-- `digitChar` always yields a digit character. -/
theorem isDigitChar_digitChar (m : ℕ) : isDigitChar (digitChar m) = true := by
  unfold digitChar
  rcases m with _|_|_|_|_|_|_|_|_|m <;> rfl

/-- The numeric value of a digit character below ten. -/
theorem digitChar_toNat (m : ℕ) (h : m < 10) : (digitChar m).toNat - 48 = m := by
  have H : ∀ m' : ℕ, m' < 10 → (digitChar m').toNat - 48 = m' := by decide
  exact H m h

/-- `digitsToNat` with a running accumulator. -/
theorem digitsToNat_foldl (l : List Char) :
    ∀ init : ℕ, l.foldl (fun n c => 10 * n + (c.toNat - 48)) init =
      init * 10 ^ l.length + digitsToNat l := by
  induction l with
  | nil => intro init; simp [digitsToNat]
  | cons c l ih =>
    intro init
    rw [List.foldl_cons]
    rw [ih (10 * init + (c.toNat - 48))]
    have : digitsToNat (c :: l) = (c.toNat - 48) * 10 ^ l.length + digitsToNat l := by
      show List.foldl (fun n c => 10 * n + (c.toNat - 48)) 0 (c :: l) = _
      rw [List.foldl_cons]
      rw [ih (10 * 0 + (c.toNat - 48))]
      ring_nf
    rw [this, List.length_cons]
    ring

/-- `digitsToNat` over an append. -/
theorem digitsToNat_append (a b : List Char) :
    digitsToNat (a ++ b) = digitsToNat a * 10 ^ b.length + digitsToNat b := by
  unfold digitsToNat
  rw [List.foldl_append]
  exact digitsToNat_foldl b _

/-- Leading zero characters contribute nothing. -/
theorem digitsToNat_replicate_zero (m : ℕ) (l : List Char) :
    digitsToNat (List.replicate m '0' ++ l) = digitsToNat l := by
  rw [digitsToNat_append]
  have : digitsToNat (List.replicate m '0') = 0 := by
    induction m with
    | zero => rfl
    | succ m ih =>
      rw [List.replicate_succ]
      unfold digitsToNat at ih ⊢
      rw [List.foldl_cons]
      simpa using ih
  rw [this]
  simp

/-- `toDecimal` inverts through `digitsToNat`. -/
theorem digitsToNat_toDecimal (n : ℕ) : digitsToNat (toDecimal n) = n := by
  induction n using Nat.strong_induction_on with
  | _ n ih =>
    unfold toDecimal
    split
    · next h =>
      show digitsToNat [digitChar n] = n
      unfold digitsToNat
      simp only [List.foldl_cons, List.foldl_nil]
      rw [Nat.mul_zero, Nat.zero_add]
      exact digitChar_toNat n h
    · next h =>
      rw [digitsToNat_append]
      rw [ih (n / 10) (Nat.div_lt_self (by omega) (by omega))]
      have h1 : digitsToNat [digitChar (n % 10)] = n % 10 := by
        unfold digitsToNat
        simp only [List.foldl_cons, List.foldl_nil]
        rw [Nat.mul_zero, Nat.zero_add]
        exact digitChar_toNat (n % 10) (Nat.mod_lt n (by omega))
      rw [h1, List.length_singleton]
      omega

/-- `toDecimal` yields digit characters. -/
theorem toDecimal_digits (n : ℕ) : ∀ c ∈ toDecimal n, isDigitChar c = true := by
  induction n using Nat.strong_induction_on with
  | _ n ih =>
    intro c hc
    unfold toDecimal at hc
    split at hc
    · rcases List.mem_singleton.mp hc with rfl
      exact isDigitChar_digitChar n
    · next h =>
      rw [List.mem_append] at hc
      rcases hc with hc | hc
      · exact ih (n / 10) (Nat.div_lt_self (by omega) (by omega)) c hc
      · rcases List.mem_singleton.mp hc with rfl
        exact isDigitChar_digitChar (n % 10)

/-- `toDecimal` is never empty. -/
theorem toDecimal_ne_nil (n : ℕ) : toDecimal n ≠ [] := by
  unfold toDecimal
  split
  · exact List.cons_ne_nil _ _
  · simp

/-- Soundness of the bounded exponent search. -/
theorem decExpAux_sound (q : ℚ) :
    ∀ (fuel k k' : ℕ), decExpAux q fuel k = some k' → (q * 10 ^ k').den = 1 := by
  intro fuel
  induction fuel with
  | zero => intro k k' h; exact absurd h (by simp [decExpAux])
  | succ fuel ih =>
    intro k k' h
    unfold decExpAux at h
    split at h
    · next hc => rcases Option.some.injEq _ _ ▸ h with rfl; exact hc
    · exact ih (k + 1) k' h

/-- Completeness of the bounded exponent search. -/
theorem decExpAux_some (q : ℚ) :
    ∀ (fuel j k : ℕ), (q * 10 ^ j).den = 1 → k ≤ j → j < k + fuel →
      ∃ k', decExpAux q fuel k = some k' := by
  intro fuel
  induction fuel with
  | zero => intro j k _ h1 h2; omega
  | succ fuel ih =>
    intro j k hj h1 h2
    unfold decExpAux
    by_cases hc : (q * 10 ^ k).den = 1
    · exact ⟨k, if_pos hc⟩
    · have hne : k ≠ j := fun he => hc (he ▸ hj)
      obtain ⟨k', hk'⟩ := ih j (k + 1) hj (by omega) (by omega)
      exact ⟨k', by rw [if_neg hc]; exact hk'⟩

/-- A rational that becomes an integer after scaling by `10^k` has a
denominator dividing `10^k`. -/
theorem den_dvd_of_mul_pow (q : ℚ) (k : ℕ) (h : (q * 10 ^ k).den = 1) :
    q.den ∣ 10 ^ k := by
  set x := q * 10 ^ k with hx
  have hxint : ((x.num : ℚ)) = x := by
    conv_rhs => rw [← Rat.num_div_den x]
    rw [h]
    simp
  have hq : q = Rat.divInt x.num ((10 : ℤ) ^ k) := by
    rw [Rat.divInt_eq_div]
    rw [hxint, hx]
    have h0 : ((10 : ℚ)) ^ k ≠ 0 := by positivity
    push_cast
    field_simp
  have hdvd : (q.den : ℤ) ∣ (10 : ℤ) ^ k := by
    rw [hq]
    exact Rat.den_dvd x.num ((10 : ℤ) ^ k)
  have : ((10 : ℤ)) ^ k = ((10 ^ k : ℕ) : ℤ) := by push_cast; ring
  rw [this] at hdvd
  exact_mod_cast hdvd

/-- A divisor of a power of ten divides the power of ten with its own
exponent. -/
theorem dvd_ten_pow_self (d k : ℕ) (hd : 0 < d) (h : d ∣ 10 ^ k) :
    d ∣ 10 ^ d := by
  have h2 : d ∣ 2 ^ k * 5 ^ k := by
    rw [← Nat.mul_pow]
    norm_num at h ⊢
    exact h
  rw [Nat.dvd_mul] at h2
  obtain ⟨d2, d5, hd2, hd5, heq⟩ := h2
  obtain ⟨a, -, rfl⟩ := (Nat.dvd_prime_pow Nat.prime_two).mp hd2
  obtain ⟨b, -, rfl⟩ := (Nat.dvd_prime_pow Nat.prime_five).mp hd5
  have ha : a ≤ d := by
    have h1 : 2 ^ a ≤ d := Nat.le_of_dvd hd ⟨5 ^ b, heq.symm⟩
    have h2 : a < 2 ^ a := Nat.lt_two_pow a
    omega
  have hb : b ≤ d := by
    have h1 : 5 ^ b ≤ d := Nat.le_of_dvd hd ⟨2 ^ a, by rw [← heq]; ring⟩
    have h2 : b < 5 ^ b := by
      calc b < 2 ^ b := Nat.lt_two_pow b
      _ ≤ 5 ^ b := Nat.pow_le_pow_left (by omega) b
    omega
  have h10 : (10 : ℕ) ^ d = 2 ^ d * 5 ^ d := by
    rw [← Nat.mul_pow]
  rw [h10]
  nth_rewrite 1 [← heq]
  exact mul_dvd_mul (pow_dvd_pow 2 ha) (pow_dvd_pow 5 hb)

/-- Scaling by `10^m` clears the denominator when it divides `10^m`. -/
theorem den_one_of_den_dvd (q : ℚ) (m : ℕ) (h : q.den ∣ 10 ^ m) :
    (q * 10 ^ m).den = 1 := by
  obtain ⟨t, ht⟩ := h
  have hden : ((q.den : ℚ)) ≠ 0 := Nat.cast_ne_zero.mpr q.den_nz
  have hqden : q * (q.den : ℚ) = (q.num : ℚ) := by
    nth_rewrite 1 [← Rat.num_div_den q]
    exact div_mul_cancel₀ _ hden
  have : q * 10 ^ m = ((q.num * t : ℤ) : ℚ) := by
    calc q * 10 ^ m = q * ((q.den : ℚ) * (t : ℚ)) := by
          rw [show ((10 : ℚ)) ^ m = ((10 ^ m : ℕ) : ℚ) by push_cast; ring, ht]
          push_cast
          ring
    _ = (q * (q.den : ℚ)) * (t : ℚ) := by ring
    _ = ((q.num : ℚ)) * (t : ℚ) := by rw [hqden]
    _ = ((q.num * t : ℤ) : ℚ) := by push_cast; ring
  rw [this, Rat.den_intCast]

/-- Decimality transfers to the searchable exponent `q.den`. -/
theorem den_one_at_den (q : ℚ) (k : ℕ) (h : (q * 10 ^ k).den = 1) :
    (q * 10 ^ q.den).den = 1 :=
  den_one_of_den_dvd q q.den
    (dvd_ten_pow_self q.den k q.pos (den_dvd_of_mul_pow q k h))

/-- `decExp` succeeds on every decimal rational. -/
theorem decExp_some (q : ℚ) (h : ∃ k, (q * 10 ^ k).den = 1) :
    ∃ k', decExp q = some k' := by
  obtain ⟨k, hk⟩ := h
  exact decExpAux_some q (q.den + 1) q.den 0 (den_one_at_den q k hk)
    (Nat.zero_le _) (by omega)

/-- `renderNonneg` of a nonnegative decimal rational is a well-formed
unsigned numeral with the same value. -/
theorem renderNonneg_spec (q : ℚ) (hq : 0 ≤ q) (hdec : ∃ k, (q * 10 ^ k).den = 1) :
    ∃ ip fp, renderNonneg q = ip ++ fracChars fp ∧ ip ≠ [] ∧
      (∀ c ∈ ip, isDigitChar c = true) ∧
      (∀ f, fp = some f → ∀ c ∈ f, isDigitChar c = true) ∧
      mantissaVal ip (fp.getD []) = q := by
  obtain ⟨k, hk⟩ := decExp_some q hdec
  have hsound : (q * 10 ^ k).den = 1 := by
    unfold decExp at hk
    exact decExpAux_sound q (q.den + 1) 0 k hk
  unfold renderNonneg
  rw [hk]
  cases k with
  | zero =>
    have hden1 : q.den = 1 := by simpa using hsound
    have hnum0 : 0 ≤ q.num := Rat.num_nonneg.mpr hq
    have hqnum : ((q.num.toNat : ℕ) : ℚ) = q := by
      have h1 : ((q.num.toNat : ℕ) : ℚ) = ((q.num : ℤ) : ℚ) := by
        rw [← Int.cast_natCast]
        exact congrArg _ (Int.toNat_of_nonneg hnum0)
      rw [h1]
      conv_rhs => rw [← Rat.num_div_den q]
      rw [hden1]
      simp
    refine ⟨toDecimal q.num.toNat, none, by simp [fracChars], toDecimal_ne_nil _,
      toDecimal_digits _, by simp, ?_⟩
    unfold mantissaVal
    rw [digitsToNat_toDecimal]
    show (q.num.toNat : ℚ) + (digitsToNat [] : ℚ) / 10 ^ (0:ℕ) = q
    rw [show digitsToNat [] = 0 from rfl]
    rw [hqnum]
    norm_num
  | succ j =>
    set x := q * 10 ^ (j + 1) with hxdef
    have hx0 : 0 ≤ x := by positivity
    have hxnum : 0 ≤ x.num := Rat.num_nonneg.mpr hx0
    have hN : ((x.num.toNat : ℕ) : ℚ) = x := by
      have h1 : ((x.num.toNat : ℕ) : ℚ) = ((x.num : ℤ) : ℚ) := by
        rw [← Int.cast_natCast]
        exact congrArg _ (Int.toNat_of_nonneg hxnum)
      rw [h1]
      conv_rhs => rw [← Rat.num_div_den x]
      rw [hsound]
      simp
    set L := toDecimal x.num.toNat with hLdef
    set padded := if L.length < (j + 1) + 1 then
      List.replicate ((j + 1) + 1 - L.length) '0' ++ L else L with hpaddef
    have hpdig : ∀ c ∈ padded, isDigitChar c = true := by
      rw [hpaddef]
      split
      · intro c hc
        rw [List.mem_append] at hc
        rcases hc with hc | hc
        · rcases List.eq_of_mem_replicate hc with rfl
          decide
        · exact toDecimal_digits _ c hc
      · exact toDecimal_digits _
    have hpval : digitsToNat padded = x.num.toNat := by
      rw [hpaddef]
      split
      · rw [digitsToNat_replicate_zero]
        exact digitsToNat_toDecimal _
      · exact digitsToNat_toDecimal _
    have hplen : (j + 1) + 1 ≤ padded.length := by
      rw [hpaddef]
      split
      · next hlt =>
        rw [List.length_append, List.length_replicate]
        omega
      · next hge => omega
    set ip := padded.take (padded.length - (j + 1)) with hipdef
    set fp := padded.drop (padded.length - (j + 1)) with hfpdef
    have hiplen : ip.length = padded.length - (j + 1) := by
      rw [hipdef, List.length_take]
      omega
    have hfplen : fp.length = j + 1 := by
      rw [hfpdef, List.length_drop]
      omega
    have hipfp : ip ++ fp = padded := List.take_append_drop _ _
    have hipne : ip ≠ [] := by
      intro h
      rw [h] at hiplen
      simp at hiplen
      omega
    refine ⟨ip, some fp, rfl, hipne, ?_, ?_, ?_⟩
    · exact fun c hc => hpdig c (List.take_subset _ _ hc)
    · rintro f hf
      rcases Option.some.injEq _ _ ▸ hf with rfl
      exact fun c hc => hpdig c (List.drop_subset _ _ hc)
    · show mantissaVal ip fp = q
      have hsplitN : digitsToNat ip * 10 ^ (j + 1) + digitsToNat fp = x.num.toNat := by
        rw [← hpval, ← hipfp, digitsToNat_append, hfplen]
      have hq10 : q = ((x.num.toNat : ℕ) : ℚ) / 10 ^ (j + 1) := by
        rw [hN, hxdef]
        have : ((10 : ℚ)) ^ (j + 1) ≠ 0 := by positivity
        field_simp
      unfold mantissaVal
      rw [hfplen, hq10, ← hsplitN]
      have h10 : ((10 : ℚ)) ^ (j + 1) ≠ 0 := by positivity
      push_cast
      field_simp

/-- `renderNum` of a decimal rational is a well-formed numeral with the
same value. -/
theorem renderNum_numeral (v : ℚ) (hdec : ∃ k, (v * 10 ^ k).den = 1) :
    ∃ n : Numeral, n.WF ∧ n.chars = renderNum v ∧ n.val = v := by
  unfold renderNum
  by_cases hv : v < 0
  · rw [if_pos hv]
    have hdec' : ∃ k, ((-v) * 10 ^ k).den = 1 := by
      obtain ⟨k, hk⟩ := hdec
      exact ⟨k, by rw [neg_mul, Rat.neg_den]; exact hk⟩
    obtain ⟨ip, fp, hrn, hne, hdip, hdfp, hval⟩ :=
      renderNonneg_spec (-v) (by linarith) hdec'
    refine ⟨⟨true, ip, fp⟩, ⟨hne, hdip, hdfp⟩, ?_, ?_⟩
    · unfold Numeral.chars
      rw [hrn]
      rfl
    · unfold Numeral.val
      show -(mantissaVal ip (fp.getD [])) = v
      rw [hval]
      ring
  · rw [if_neg hv]
    obtain ⟨ip, fp, hrn, hne, hdip, hdfp, hval⟩ :=
      renderNonneg_spec v (by linarith) hdec
    refine ⟨⟨false, ip, fp⟩, ⟨hne, hdip, hdfp⟩, ?_, ?_⟩
    · unfold Numeral.chars
      rw [hrn]
      rfl
    · unfold Numeral.val
      show mantissaVal ip (fp.getD []) = v
      exact hval

/-- The value of a numeral is a decimal rational: multiplying by ten to the
fraction length clears the denominator. -/
theorem numeral_val_decimal (n : Numeral) : ∃ k, (n.val * 10 ^ k).den = 1 := by
  refine ⟨(n.frac.getD []).length, ?_⟩
  have h10 : ((10 : ℚ)) ^ (n.frac.getD []).length ≠ 0 := by positivity
  have key : mantissaVal n.intPart (n.frac.getD []) * 10 ^ (n.frac.getD []).length
      = ((digitsToNat n.intPart * 10 ^ (n.frac.getD []).length
          + digitsToNat (n.frac.getD []) : ℕ) : ℚ) := by
    unfold mantissaVal
    push_cast
    field_simp
  unfold Numeral.val
  rcases hn : n.neg with _ | _
  · show (mantissaVal n.intPart (n.frac.getD [])
      * 10 ^ (n.frac.getD []).length).den = 1
    rw [key]
    exact Rat.den_natCast _
  · show ((-(mantissaVal n.intPart (n.frac.getD [])))
      * 10 ^ (n.frac.getD []).length).den = 1
    rw [neg_mul, Rat.neg_den, key]
    exact Rat.den_natCast _

/-- Separator characters are not command letters. -/
theorem sep_not_cmd {c : Char} (h : sepChar c = true) : isCmdLetter c = false := by
  unfold sepChar at h
  rcases of_decide_eq_true h with rfl | hws
  · decide
  · exact (ws_facts hws).1

/-! ### The coordinate regex on a well-formed command -/

/-- The anchored regex match succeeds on a well-formed command and captures
the letter and the two numeral tokens. -/
theorem matchMLAt_wf (c : MLCmd) (h : c.WF) :
    matchMLAt c.chars = some (c.letter, c.x.chars, c.y.chars) := by
  obtain ⟨hlet, hws1, hxwf, hsep, hywf, hws2⟩ := h
  obtain ⟨d, t, hxc, hdws, hdtok⟩ := numeral_head c.x hxwf
  have hxtok := numeral_chars_token c.x hxwf
  have hytok := numeral_chars_token c.y hywf
  have hseptok : tokenChar c.sep = false := sep_not_token hsep
  have hxne : c.x.chars ≠ [] := by
    rw [hxc]
    exact List.cons_ne_nil _ _
  have hyne : c.y.chars ≠ [] := by
    obtain ⟨d', t', hyc, -, -⟩ := numeral_head c.y hywf
    rw [hyc]
    exact List.cons_ne_nil _ _
  have hafter : (c.ws1 ++ (c.x.chars ++ c.sep :: (c.y.chars ++ c.ws2))).dropWhile jsWS
      = c.x.chars ++ c.sep :: (c.y.chars ++ c.ws2) := by
    rw [dropWhile_append_all jsWS c.ws1 _ hws1]
    apply dropWhile_eq_self_of_head
    intro a ha
    rw [hxc, List.cons_append, List.take_succ_cons, List.take_zero] at ha
    rcases List.mem_singleton.mp ha with rfl
    exact hdws
  have hxTok : (c.x.chars ++ c.sep :: (c.y.chars ++ c.ws2)).takeWhile tokenChar
      = c.x.chars := by
    rw [takeWhile_append_all tokenChar c.x.chars _ fun a ha => (hxtok a ha).1]
    rw [List.takeWhile_cons, hseptok]
    simp
  have hdropTok : (c.x.chars ++ c.sep :: (c.y.chars ++ c.ws2)).dropWhile tokenChar
      = c.sep :: (c.y.chars ++ c.ws2) := by
    rw [dropWhile_append_all tokenChar c.x.chars _ fun a ha => (hxtok a ha).1]
    rw [List.dropWhile_cons, hseptok]
    simp
  have hyTok : (c.y.chars ++ c.ws2).takeWhile tokenChar = c.y.chars := by
    rw [takeWhile_append_all tokenChar c.y.chars _ fun a ha => (hytok a ha).1]
    rw [takeWhile_eq_nil_of_head tokenChar c.ws2
      fun a ha => (ws_facts (hws2 a (List.take_subset _ _ ha))).2.2.1]
    rw [List.append_nil]
  have hcond : c.letter = 'M' ∨ c.letter = 'L' ∨ c.letter = 'm' ∨ c.letter = 'l' := by
    rcases hlet with h' | h'
    · exact Or.inl h'
    · exact Or.inr (Or.inl h')
  show matchMLAt (c.letter :: (c.ws1 ++ c.x.chars ++ c.sep :: (c.y.chars ++ c.ws2)))
    = some (c.letter, c.x.chars, c.y.chars)
  rw [List.append_assoc]
  simp only [matchMLAt]
  rw [if_pos hcond, hafter, hxTok, if_neg hxne, hdropTok]
  show (if sepChar c.sep = true then
      if (c.y.chars ++ c.ws2).takeWhile tokenChar = [] then none
      else some (c.letter, c.x.chars, (c.y.chars ++ c.ws2).takeWhile tokenChar)
    else none) = some (c.letter, c.x.chars, c.y.chars)
  rw [if_pos hsep, hyTok, if_neg hyne]

/-- The leftmost search resolves at position 0 when the anchored match
succeeds there. -/
theorem matchMLSearch_head (a : Char) (l : List Char)
    (r : Char × List Char × List Char) (h : matchMLAt (a :: l) = some r) :
    matchMLSearch (a :: l) = some r := by
  show (match matchMLAt (a :: l) with
    | some r' => some r'
    | none => matchMLSearch l) = some r
  rw [h]

/-- `parsePath`'s chunk decoder maps a well-formed command's text to its
denotation. -/
theorem parsePathChunk_wf (c : MLCmd) (h : c.WF) :
    parsePathChunk c.chars = c.seg := by
  have hm := matchMLAt_wf c h
  obtain ⟨hlet, -, hxwf, -, hywf, -⟩ := h
  have hsearch : matchMLSearch c.chars = some (c.letter, c.x.chars, c.y.chars) :=
    matchMLSearch_head c.letter
      (c.ws1 ++ c.x.chars ++ c.sep :: (c.y.chars ++ c.ws2)) _ hm
  have htake1 : c.chars.take 1 = [c.letter] := by
    show (c.letter :: _).take 1 = _
    rw [List.take_succ_cons, List.take_zero]
  have htype : String.mk (c.chars.take 1) = "M" ∨ String.mk (c.chars.take 1) = "L" := by
    rw [htake1]
    rcases hlet with h' | h'
    · exact Or.inl (by rw [h'])
    · exact Or.inr (by rw [h'])
  show (if String.mk (c.chars.take 1) = "M" ∨ String.mk (c.chars.take 1) = "L" then
      match matchMLSearch c.chars with
      | some (_, xTok, yTok) =>
        PathSeg.coord (String.mk (c.chars.take 1)) (jsParseFloatAux xTok)
          (jsParseFloatAux yTok)
      | none =>
        PathSeg.coord (String.mk (c.chars.take 1))
          (jsParseFloat (String.mk (c.chars.take 1))) (JNum.fin 0)
    else PathSeg.raw (String.mk (c.chars.take 1)) (String.mk c.chars)) = c.seg
  rw [if_pos htype, hsearch]
  show PathSeg.coord (String.mk (c.chars.take 1)) (jsParseFloatAux c.x.chars)
    (jsParseFloatAux c.y.chars) = c.seg
  rw [htake1, jsParseFloatAux_numeral c.x hxwf, jsParseFloatAux_numeral c.y hywf]
  rfl

/-- The text of a well-formed command is a letter-headed, otherwise
letter-free chunk. -/
theorem mlcmd_chunk_shape (c : MLCmd) (h : c.WF) :
    ∃ a cs, c.chars = a :: cs ∧ isCmdLetter a = true ∧
      ∀ x ∈ cs, isCmdLetter x = false := by
  obtain ⟨hlet, hws1, hxwf, hsep, hywf, hws2⟩ := h
  refine ⟨c.letter, c.ws1 ++ c.x.chars ++ c.sep :: (c.y.chars ++ c.ws2), rfl, ?_, ?_⟩
  · rcases hlet with h' | h' <;> rw [h'] <;> decide
  · intro x hx
    rcases List.mem_append.mp hx with hx' | hx'
    · rcases List.mem_append.mp hx' with hx'' | hx''
      · exact (ws_facts (hws1 x hx'')).1
      · exact (numeral_chars_token c.x hxwf x hx'').2.1
    · rcases List.mem_cons.mp hx' with rfl | hx''
      · exact sep_not_cmd hsep
      rcases List.mem_append.mp hx'' with hx3 | hx3
      · exact (numeral_chars_token c.y hywf x hx3).2.1
      · exact (ws_facts (hws2 x hx3)).1

/-- `parsePath` decodes the concatenation of well-formed commands to their
denotations. -/
theorem parsePath_mlPathString (cmds : List MLCmd) (hne : cmds ≠ [])
    (hwf : ∀ c ∈ cmds, c.WF) :
    parsePath (mlPathString cmds) = cmds.map MLCmd.seg := by
  have hch : ∀ ch ∈ cmds.map MLCmd.chars, ∃ a cs, ch = a :: cs ∧
      isCmdLetter a = true ∧ ∀ x ∈ cs, isCmdLetter x = false := by
    intro ch hchm
    obtain ⟨c, hc, rfl⟩ := List.mem_map.mp hchm
    exact mlcmd_chunk_shape c (hwf c hc)
  have hne' : cmds.map MLCmd.chars ≠ [] := by
    rcases cmds with _ | ⟨a, l⟩
    · exact absurd rfl hne
    · simp
  show (splitCommands (cmds.map MLCmd.chars).flatten).map parsePathChunk = _
  rw [splitCommands_join (cmds.map MLCmd.chars) hne' hch]
  rw [List.map_map]
  exact List.map_congr_left fun c hc => parsePathChunk_wf c (hwf c hc)

/-- `stringifyPath` of the denotation of well-formed commands is itself the
text of a (canonically spaced) well-formed command list with the same
denotation. -/
theorem stringify_canon : ∀ (cmds : List MLCmd), cmds ≠ [] →
    (∀ c ∈ cmds, c.WF) →
    ∃ cmds', cmds' ≠ [] ∧ (∀ c ∈ cmds', c.WF) ∧
      cmds'.map MLCmd.seg = cmds.map MLCmd.seg ∧
      (stringifyPath (cmds.map MLCmd.seg)).data = (cmds'.map MLCmd.chars).flatten := by
  intro cmds
  induction cmds with
  | nil => intro h _; exact absurd rfl h
  | cons c rest ih =>
    intro _ hwf
    have hcwf := hwf c (List.mem_cons_self _ _)
    obtain ⟨nx, hnxwf, hnxchars, hnxval⟩ :=
      renderNum_numeral c.x.val (numeral_val_decimal c.x)
    obtain ⟨ny, hnywf, hnychars, hnyval⟩ :=
      renderNum_numeral c.y.val (numeral_val_decimal c.y)
    have hsp : (" " : String).data = [' '] := rfl
    have hhead : (stringifySeg (MLCmd.seg c)).data
        = [c.letter] ++ [' '] ++ nx.chars ++ [' '] ++ ny.chars := by
      show (String.mk [c.letter] ++ " " ++ String.mk (renderNum c.x.val) ++ " "
        ++ String.mk (renderNum c.y.val)).data = _
      rw [hnxchars, hnychars]
      simp [String.data_append, hsp]
    have hws1' : ∀ a ∈ ([' '] : List Char), jsWS a = true := by decide
    have hsep' : sepChar ' ' = true := by decide
    have hws2nil : ∀ a ∈ ([] : List Char), jsWS a = true := by decide
    rcases rest with _ | ⟨c2, rest'⟩
    · refine ⟨[⟨c.letter, [' '], nx, ' ', ny, []⟩], List.cons_ne_nil _ _, ?_, ?_, ?_⟩
      · intro c' hc'
        rcases List.mem_singleton.mp hc' with rfl
        exact ⟨hcwf.1, hws1', hnxwf, hsep', hnywf, hws2nil⟩
      · have hheadseg : MLCmd.seg ⟨c.letter, [' '], nx, ' ', ny, []⟩ = MLCmd.seg c := by
          show PathSeg.coord (String.mk [c.letter]) (JNum.fin nx.val) (JNum.fin ny.val)
            = PathSeg.coord (String.mk [c.letter]) (JNum.fin c.x.val) (JNum.fin c.y.val)
          rw [hnxval, hnyval]
        show [MLCmd.seg ⟨c.letter, [' '], nx, ' ', ny, []⟩] = [MLCmd.seg c]
        rw [hheadseg]
      · show (stringifySeg (MLCmd.seg c)).data = _
        rw [hhead]
        show _ = MLCmd.chars ⟨c.letter, [' '], nx, ' ', ny, []⟩ ++ []
        unfold MLCmd.chars
        simp
    · have hrestwf : ∀ x ∈ c2 :: rest', x.WF :=
        fun x hx => hwf x (List.mem_cons_of_mem _ hx)
      obtain ⟨cmds'', hne'', hwf'', hsegs'', hdata''⟩ :=
        ih (List.cons_ne_nil _ _) hrestwf
      refine ⟨⟨c.letter, [' '], nx, ' ', ny, [' ']⟩ :: cmds'',
        List.cons_ne_nil _ _, ?_, ?_, ?_⟩
      · intro c' hc'
        rcases List.mem_cons.mp hc' with rfl | hc''
        · exact ⟨hcwf.1, hws1', hnxwf, hsep', hnywf, hws1'⟩
        · exact hwf'' c' hc''
      · have hheadseg : MLCmd.seg ⟨c.letter, [' '], nx, ' ', ny, [' ']⟩ = MLCmd.seg c := by
          show PathSeg.coord (String.mk [c.letter]) (JNum.fin nx.val) (JNum.fin ny.val)
            = PathSeg.coord (String.mk [c.letter]) (JNum.fin c.x.val) (JNum.fin c.y.val)
          rw [hnxval, hnyval]
        simp only [List.map_cons]
        rw [hsegs'', hheadseg]
        simp only [List.map_cons]
      · have hjoin : stringifyPath ((c :: c2 :: rest').map MLCmd.seg)
            = stringifySeg (MLCmd.seg c) ++ " "
              ++ stringifyPath ((c2 :: rest').map MLCmd.seg) := by
          show joinSep " " (stringifySeg (MLCmd.seg c)
              :: ((c2 :: rest').map MLCmd.seg).map stringifySeg) = _
          rw [joinSep_cons_of_ne_nil " " _ _ (by simp)]
          rfl
        rw [hjoin, String.data_append, String.data_append, hdata'', hhead, hsp]
        show _ = MLCmd.chars ⟨c.letter, [' '], nx, ' ', ny, [' ']⟩
          ++ (cmds''.map MLCmd.chars).flatten
        unfold MLCmd.chars
        simp

/-- C3: for a non-empty list of well-formed `M`/`L` commands (a command
letter, optional whitespace, two decimal numerals separated by a single
comma-or-whitespace separator, trailing whitespace), `parsePath` decodes the
concatenated path data to exactly the denoted command sequence, and the
parse/stringify round-trip is the identity on the parse:
`parsePath (stringifyPath (parsePath d)) = parsePath d`. -/
theorem ml_roundtrip (cmds : List MLCmd) (hne : cmds ≠ [])
    (hwf : ∀ c ∈ cmds, c.WF) :
    parsePath (mlPathString cmds) = cmds.map MLCmd.seg ∧
      parsePath (stringifyPath (parsePath (mlPathString cmds)))
        = parsePath (mlPathString cmds) := by
  have hp := parsePath_mlPathString cmds hne hwf
  obtain ⟨cmds', hne', hwf', hsegs, hdata⟩ := stringify_canon cmds hne hwf
  refine ⟨hp, ?_⟩
  rw [hp]
  have hstr : stringifyPath (cmds.map MLCmd.seg) = mlPathString cmds' := by
    unfold mlPathString
    rw [← hdata]
  rw [hstr, parsePath_mlPathString cmds' hne' hwf', hsegs]

/-- The splitter worker on a letter-free list yields a single chunk. -/
theorem splitCmdsAux_all_nonletter (l acc : List Char)
    (hl : ∀ a ∈ l, isCmdLetter a = false) :
    splitCmdsAux l acc = [acc.reverse ++ l] := by
  have h := splitCmdsAux_append_pending l [] acc hl
  rw [List.append_nil] at h
  rw [h]
  show [(l.reverse ++ acc).reverse] = [acc.reverse ++ l]
  simp

/-- C3 counterexample: a path of only M/L commands with a leading space
fails the round-trip law.  The leading whitespace becomes a raw chunk of its
own; `stringifyPath` re-joins it with an extra space, so re-parsing sees a
two-space raw segment. -/
theorem ml_roundtrip_counterexample :
    parsePath (stringifyPath (parsePath " M 0 0")) ≠ parsePath " M 0 0" := by
  have hwf0 : Numeral.WF ⟨false, ['0'], none⟩ :=
    ⟨by decide, by decide, fun f hf => nomatch hf⟩
  have h1 : parsePath " M 0 0" = [PathSeg.raw (String.mk [' ']) (String.mk [' ']),
      parsePathChunk ['M', ' ', '0', ' ', '0']] := rfl
  have h2 : parsePathChunk ['M', ' ', '0', ' ', '0'] = PathSeg.coord (String.mk ['M'])
      (jsParseFloatAux ['0']) (jsParseFloatAux ['0']) := rfl
  have h3 : jsParseFloatAux ['0'] = JNum.fin (Numeral.val ⟨false, ['0'], none⟩) :=
    jsParseFloatAux_numeral ⟨false, ['0'], none⟩ hwf0
  have hparse : parsePath " M 0 0" = [PathSeg.raw (String.mk [' ']) (String.mk [' ']),
      PathSeg.coord (String.mk ['M']) (JNum.fin (Numeral.val ⟨false, ['0'], none⟩))
        (JNum.fin (Numeral.val ⟨false, ['0'], none⟩))] := by
    rw [h1, h2, h3]
  obtain ⟨nr, hnrwf, hnrchars, -⟩ :=
    renderNum_numeral (Numeral.val ⟨false, ['0'], none⟩)
      (numeral_val_decimal ⟨false, ['0'], none⟩)
  have hsp : (" " : String).data = [' '] := rfl
  have hst : (stringifyPath (parsePath " M 0 0")).data
      = ' ' :: ' ' :: 'M' :: ' ' :: (nr.chars ++ ' ' :: nr.chars) := by
    rw [hparse]
    show (String.mk [' '] ++ " " ++ (String.mk ['M'] ++ " "
      ++ String.mk (renderNum (Numeral.val ⟨false, ['0'], none⟩)) ++ " "
      ++ String.mk (renderNum (Numeral.val ⟨false, ['0'], none⟩)))).data = _
    rw [← hnrchars]
    simp [String.data_append, hsp]
  have hall : ∀ a ∈ ' ' :: (nr.chars ++ ' ' :: nr.chars), isCmdLetter a = false := by
    intro a ha
    rcases List.mem_cons.mp ha with rfl | ha'
    · decide
    rcases List.mem_append.mp ha' with h' | h'
    · exact (numeral_chars_token nr hnrwf a h').2.1
    rcases List.mem_cons.mp h' with rfl | h''
    · decide
    · exact (numeral_chars_token nr hnrwf a h'').2.1
  have hsplit : splitCommands (stringifyPath (parsePath " M 0 0")).data
      = [[' ', ' '], 'M' :: ' ' :: (nr.chars ++ ' ' :: nr.chars)] := by
    rw [hst]
    show splitCmdsAux (' ' :: 'M' :: ' ' :: (nr.chars ++ ' ' :: nr.chars)) [' '] = _
    rw [show splitCmdsAux (' ' :: 'M' :: ' ' :: (nr.chars ++ ' ' :: nr.chars)) [' ']
      = splitCmdsAux ('M' :: ' ' :: (nr.chars ++ ' ' :: nr.chars)) [' ', ' '] from rfl]
    rw [show splitCmdsAux ('M' :: ' ' :: (nr.chars ++ ' ' :: nr.chars)) [' ', ' ']
      = [' ', ' '] :: splitCmdsAux (' ' :: (nr.chars ++ ' ' :: nr.chars)) ['M'] from rfl]
    rw [splitCmdsAux_all_nonletter _ ['M'] hall]
    rfl
  have hlhs : parsePath (stringifyPath (parsePath " M 0 0"))
      = [parsePathChunk [' ', ' '],
         parsePathChunk ('M' :: ' ' :: (nr.chars ++ ' ' :: nr.chars))] := by
    show (splitCommands (stringifyPath (parsePath " M 0 0")).data).map parsePathChunk = _
    rw [hsplit]
    rfl
  have hc1 : parsePathChunk [' ', ' ']
      = PathSeg.raw (String.mk [' ']) (String.mk [' ', ' ']) := rfl
  intro hEq
  rw [hlhs, hparse, hc1] at hEq
  injection hEq with hhead _
  exact absurd hhead (by decide)

/-- A concrete well-formed command list for the round-trip theorem. -/
def mlWitnessCmd : MLCmd :=
  ⟨'M', [' '], ⟨false, ['1'], none⟩, ' ', ⟨false, ['2'], none⟩, []⟩

/-- Witness: the round-trip theorem applied to the single command `M 1 2`. -/
theorem ml_roundtrip_witness :
    parsePath (mlPathString [mlWitnessCmd]) = [mlWitnessCmd].map MLCmd.seg ∧
      parsePath (stringifyPath (parsePath (mlPathString [mlWitnessCmd])))
        = parsePath (mlPathString [mlWitnessCmd]) :=
  ml_roundtrip [mlWitnessCmd] (List.cons_ne_nil _ _) (by
    intro c hc
    rcases List.mem_singleton.mp hc with rfl
    exact ⟨Or.inl rfl, by decide, ⟨by decide, by decide, fun f hf => nomatch hf⟩,
      by decide, ⟨by decide, by decide, fun f hf => nomatch hf⟩, by decide⟩)

end SvgEditor
